import Mathlib

/-!
Verification of the `code_parser` core of the repository `avinash-mall/code-analyzer`:
a shallow embedding, in Lean 4, of the chunker (`parser.py`), the extractor
(`parser.py`), the repository indexer (`indexer.py`) and the dependency-graph
builder (`dependency_graph.py`), together with theorems settling the behavioural
claims made by the specification.

Modelling conventions used throughout this file:

* Python dictionaries are embedded as insertion-ordered association lists
  (`List (key × value)`); `dict.get(k, default)` is the first-match lookup.
* Python string methods (`str.split`, `str.strip`) are re-implemented over the
  character data of a `String`, following their Python semantics.
* Tree-sitter parse trees and Python `ast` trees are inputs of the embedding:
  they are modelled as inductive trees carrying exactly the attributes the
  source reads (node type, 0-based start/end rows, source text, named fields,
  children, line numbers).  The functions of `parser.py` are then translated
  over those trees.
* The `networkx.DiGraph` operations used by `dependency_graph.py` are modelled
  by a concrete graph structure (insertion-ordered node list, insertion-ordered
  simple edge list); `successors`/`predecessors` of an unknown node raise
  `NetworkXError`, modelled by `Except`.
* Machine integers do not occur: every quantity involved is an unbounded
  Python `int`, embedded as `Nat`.
-/

/-! ## Python string primitives -/

/-- Python `sep.join`-style split: split a character list at every occurrence of
the (single-character) separator.  Mirrors Python `str.split(sep)` for a
one-character `sep`: the result always has one more element than the number of
separator occurrences, so it is never empty. -/
def splitCharsOn (sep : Char) : List Char → List String
  | [] => [""]
  | c :: cs =>
    let rest := splitCharsOn sep cs
    if c = sep then
      "" :: rest
    else
      match rest with
      | [] => [String.mk [c]]
      | r :: rs => String.mk (c :: r.data) :: rs

/-- Python `code.split('\n')`, used by the chunker to turn a file into lines. -/
def splitLines (code : String) : List String :=
  splitCharsOn '\n' code.data

/-- Python `'\n'.join(lines)`. -/
def joinNL (lines : List String) : String :=
  String.intercalate "\n" lines

/-- Python `str.strip()` (whitespace strip on both ends). -/
def pyStrip (s : String) : String :=
  String.mk ((s.data.dropWhile Char.isWhitespace).reverse.dropWhile Char.isWhitespace).reverse

/-- Python `name.split('.')[-1]`: the last dotted segment of a name. -/
def lastDotSegment (s : String) : String :=
  (splitCharsOn '.' s.data).getLastD s

/-- Python slice `lines[a:b]` (for 0 ≤ a ≤ b, the only shape the source uses). -/
def sliceLines (lines : List String) (a b : Nat) : List String :=
  (lines.drop a).take (b - a)

theorem splitCharsOn_ne_nil (sep : Char) (cs : List Char) : splitCharsOn sep cs ≠ [] := by
  induction cs with
  | nil => simp [splitCharsOn]
  | cons c cs ih =>
    simp only [splitCharsOn]
    split
    · simp
    · cases h : splitCharsOn sep cs with
      | nil => simp
      | cons r rs => simp

theorem splitLines_ne_nil (code : String) : splitLines code ≠ [] :=
  splitCharsOn_ne_nil '\n' code.data

/-! ## Data model

`Definition`, `Reference` and `Chunk` are the dictionaries produced by
`parser.py`; the field names follow the source (`'type'`, `'name'`, `'line'`,
`'methods'`, `'text'`, `'start_line'`, `'end_line'`).  A definition dictionary
of the source carries a `'methods'` key only when it is a class; the embedding
gives every definition a `methods` list, empty for non-classes. -/

structure Definition where
  type : String
  name : String
  line : Nat
  methods : List String := []
deriving Repr, DecidableEq

structure Reference where
  type : String
  name : String
  line : Nat
deriving Repr, DecidableEq

structure Chunk where
  text : String
  type : String
  name : String
  start_line : Nat
  end_line : Nat
deriving Repr, DecidableEq

/-! ## Generic list helpers -/

theorem foldl_preserves {β α : Type} (P : β → Prop) (f : β → α → β)
    (h : ∀ b a, P b → P (f b a)) :
    ∀ (l : List α) (b : β), P b → P (l.foldl f b) := by
  intro l
  induction l with
  | nil => intro b hb; simpa using hb
  | cons x xs ih => intro b hb; exact ih (f b x) (h b x hb)

/-! ## The size-fallback chunker (`CodeParser._chunk_by_size`)

The source iterates `for i in range(0, len(lines), max_lines)` and emits, per
window, a chunk named by `default_chunk_name_format.format(start_line=...,
end_line=...)`.  The chunk-name format string and default chunk type are
configuration; the embedding takes them as parameters (`nameFmt`, `defaultType`).
The recursion below consumes `max_lines = m1 + 1` lines per step, which is the
same iteration for every `max_lines ≥ 1` (for `max_lines = 0` the Python
`range` raises `ValueError`; all theorems about this path assume
`max_lines ≥ 1`). -/

def chunkBySizeGo (defaultType : String) (nameFmt : Nat → Nat → String) (m1 : Nat) :
    List String → Nat → List Chunk
  | [], _ => []
  | l :: ls, i =>
    let cl := (l :: ls).take (m1 + 1)
    { text := joinNL cl
      type := defaultType
      name := nameFmt (i + 1) (i + cl.length)
      start_line := i + 1
      end_line := i + cl.length } :: chunkBySizeGo defaultType nameFmt m1 ((l :: ls).drop (m1 + 1)) (i + (m1 + 1))
termination_by ls _ => ls.length
decreasing_by
  simp only [List.length_drop, List.length_cons]
  omega

/-- `CodeParser._chunk_by_size(code, max_lines)`. -/
def chunk_by_size (defaultType : String) (nameFmt : Nat → Nat → String)
    (code : String) (maxLines : Nat) : List Chunk :=
  chunkBySizeGo defaultType nameFmt (maxLines - 1) (splitLines code) 0

theorem chunkBySizeGo_spec_aux (defaultType : String) (nameFmt : Nat → Nat → String) (m1 : Nat) :
    ∀ (n : Nat) (ls : List String), ls.length ≤ n → ∀ i : Nat, ls ≠ [] →
      (chunkBySizeGo defaultType nameFmt m1 ls i ≠ [] ∧
       (∃ c cs, chunkBySizeGo defaultType nameFmt m1 ls i = c :: cs ∧ c.start_line = i + 1) ∧
       (∃ c, (chunkBySizeGo defaultType nameFmt m1 ls i).getLast? = some c ∧
          c.end_line = i + ls.length) ∧
       List.Chain' (fun a b => b.start_line = a.end_line + 1)
         (chunkBySizeGo defaultType nameFmt m1 ls i) ∧
       (∀ c ∈ chunkBySizeGo defaultType nameFmt m1 ls i, c.start_line ≤ c.end_line)) := by
  intro n
  induction n with
  | zero =>
    intro ls hlen i hne
    match ls, hne with
    | l :: ls', _ => simp at hlen
  | succ n ih =>
    intro ls hlen i hne
    match ls, hne with
    | l :: ls', _ =>
      rw [chunkBySizeGo]
      by_cases hsmall : (l :: ls').length ≤ m1 + 1
      · have hdrop : (l :: ls').drop (m1 + 1) = [] := List.drop_eq_nil_of_le hsmall
        have htake : ((l :: ls').take (m1 + 1)).length = (l :: ls').length := by
          rw [List.length_take]; omega
        rw [hdrop, chunkBySizeGo]
        simp only [List.length_cons] at hsmall
        refine ⟨by simp, ⟨_, _, rfl, rfl⟩, ⟨_, rfl, ?_⟩, ?_, ?_⟩
        · simp only [List.getLast_singleton, List.length_take, List.length_cons]
          omega
        · simp
        · intro c hc
          simp only [List.mem_singleton] at hc
          subst hc
          simp only [List.length_take, List.length_cons]
          omega
      · push_neg at hsmall
        have hdrop_ne : (l :: ls').drop (m1 + 1) ≠ [] := by
          intro h
          have := List.drop_eq_nil_iff.mp h
          omega
        have hdlen : ((l :: ls').drop (m1 + 1)).length ≤ n := by
          simp only [List.length_drop]
          simp only [List.length_cons] at hlen ⊢
          omega
        have htake : ((l :: ls').take (m1 + 1)).length = m1 + 1 := by
          rw [List.length_take]
          simp only [List.length_cons] at hsmall ⊢
          omega
        obtain ⟨hne', ⟨c₀, cs₀, heq, hc₀⟩, ⟨cl, hcl, hcle⟩, hchain, hbound⟩ :=
          ih _ hdlen (i + (m1 + 1)) hdrop_ne
        refine ⟨by simp, ⟨_, _, rfl, rfl⟩, ⟨cl, ?_, ?_⟩, ?_, ?_⟩
        · rw [heq] at hcl ⊢
          rw [List.getLast?_cons_cons]
          exact hcl
        · rw [hcle]
          simp only [List.length_drop, List.length_cons]
          simp only [List.length_cons] at hsmall
          omega
        · rw [heq]
          rw [heq] at hchain
          refine List.Chain'.cons ?_ hchain
          simp only [htake, hc₀]
          try omega
        · intro c hc
          simp only [List.mem_cons] at hc
          rcases hc with hc | hc
          · subst hc
            simp only [htake]
            omega
          · exact hbound c hc

theorem chunkBySizeGo_spec (defaultType : String) (nameFmt : Nat → Nat → String) (m1 : Nat)
    (ls : List String) (i : Nat) (hne : ls ≠ []) :
    (chunkBySizeGo defaultType nameFmt m1 ls i ≠ [] ∧
     (∃ c cs, chunkBySizeGo defaultType nameFmt m1 ls i = c :: cs ∧ c.start_line = i + 1) ∧
     (∃ c, (chunkBySizeGo defaultType nameFmt m1 ls i).getLast? = some c ∧
        c.end_line = i + ls.length) ∧
     List.Chain' (fun a b => b.start_line = a.end_line + 1)
       (chunkBySizeGo defaultType nameFmt m1 ls i) ∧
     (∀ c ∈ chunkBySizeGo defaultType nameFmt m1 ls i, c.start_line ≤ c.end_line)) :=
  chunkBySizeGo_spec_aux defaultType nameFmt m1 ls.length ls (Nat.le_refl _) i hne

theorem chain_contig_head_lt :
    ∀ (cs : List Chunk) (c : Chunk),
      List.Chain' (fun a b => b.start_line = a.end_line + 1) (c :: cs) →
      (∀ x ∈ c :: cs, x.start_line ≤ x.end_line) →
      ∀ b ∈ cs, c.end_line < b.start_line := by
  intro cs
  induction cs with
  | nil => intro c _ _ b hb; cases hb
  | cons d ds ih =>
    intro c hchain hbound b hb
    have hcd : d.start_line = c.end_line + 1 := (List.chain'_cons.mp hchain).1
    have hd_le : d.start_line ≤ d.end_line := hbound d (by simp)
    rcases List.mem_cons.mp hb with hbd | hbds
    · subst hbd; omega
    · have := ih d (List.chain'_cons.mp hchain).2
        (fun x hx => hbound x (by
          rcases List.mem_cons.mp hx with h | h
          · subst h; simp
          · simp [h])) b hbds
      omega

/-- Contiguity plus per-chunk validity yields strictly increasing, mutually
disjoint line ranges. -/
theorem chain_contig_pairwise :
    ∀ cs : List Chunk,
      List.Chain' (fun a b => b.start_line = a.end_line + 1) cs →
      (∀ c ∈ cs, c.start_line ≤ c.end_line) →
      List.Pairwise (fun a b => a.end_line < b.start_line) cs := by
  intro cs
  induction cs with
  | nil => intro _ _; exact List.Pairwise.nil
  | cons c cs ih =>
    intro hchain hbound
    refine List.Pairwise.cons (chain_contig_head_lt cs c hchain hbound) ?_
    exact ih hchain.tail (fun x hx => hbound x (List.mem_cons_of_mem c hx))

/-! ## Python's stable sort

Both `list.sort(key=...)` (ascending) and `sorted(..., key=..., reverse=True)`
(descending) are stable: elements with equal keys keep their original relative
order.  The embedding realises this contract with an insertion-based stable
sort: elements are taken from the input left to right, and each is inserted
after every already-placed element that the Boolean test `keep` decides must
stay before it.  `keep y x = (key y ≤ key x)` gives the stable ascending sort,
`keep y x = (key x ≤ key y)` the stable descending sort. -/

def stableInsert {α : Type} (keep : α → α → Bool) (x : α) : List α → List α
  | [] => [x]
  | y :: ys => if keep y x then y :: stableInsert keep x ys else x :: y :: ys

def pySort {α : Type} (keep : α → α → Bool) (l : List α) : List α :=
  l.foldl (fun acc x => stableInsert keep x acc) []

theorem mem_stableInsert {α : Type} (keep : α → α → Bool) (x : α) :
    ∀ (l : List α) (z : α), z ∈ stableInsert keep x l ↔ z = x ∨ z ∈ l := by
  intro l
  induction l with
  | nil => intro z; simp [stableInsert]
  | cons y ys ih =>
    intro z
    simp only [stableInsert]
    split
    · simp only [List.mem_cons, ih]
      tauto
    · simp [List.mem_cons]

theorem stableInsert_perm {α : Type} (keep : α → α → Bool) (x : α) :
    ∀ l : List α, (stableInsert keep x l).Perm (x :: l) := by
  intro l
  induction l with
  | nil => simp [stableInsert]
  | cons y ys ih =>
    simp only [stableInsert]
    split
    · exact (ih.cons y).trans (List.Perm.swap x y ys)
    · exact List.Perm.refl _

theorem pySort_perm_aux {α : Type} (keep : α → α → Bool) :
    ∀ (l acc : List α), (l.foldl (fun acc x => stableInsert keep x acc) acc).Perm (l ++ acc) := by
  intro l
  induction l with
  | nil => intro acc; simp
  | cons x xs ih =>
    intro acc
    simp only [List.foldl_cons, List.cons_append]
    refine (ih (stableInsert keep x acc)).trans ?_
    refine (List.Perm.append_left xs (stableInsert_perm keep x acc)).trans ?_
    exact List.perm_middle

theorem pySort_perm {α : Type} (keep : α → α → Bool) (l : List α) :
    (pySort keep l).Perm l := by
  simpa using pySort_perm_aux keep l []

theorem stableInsert_pairwise {α : Type} {R : α → α → Prop} {keep : α → α → Bool}
    (htrans : ∀ a b c, R a b → R b c → R a c) (x : α) :
    ∀ acc : List α, acc.Pairwise R →
      (∀ y ∈ acc, (keep y x = true → R y x) ∧ (keep y x = false → R x y)) →
      (stableInsert keep x acc).Pairwise R := by
  intro acc
  induction acc with
  | nil => intro _ _; simp [stableInsert]
  | cons y ys ih =>
    intro hp hk
    simp only [stableInsert]
    split
    · rename_i hkeep
      have hyx : R y x := (hk y (by simp)).1 (by simpa using hkeep)
      refine List.Pairwise.cons ?_ (ih hp.tail (fun z hz => hk z (by simp [hz])))
      intro z hz
      rcases (mem_stableInsert keep x ys z).mp hz with h | h
      · subst h; exact hyx
      · exact List.rel_of_pairwise_cons hp h
    · rename_i hkeep
      have hkf : keep y x = false := by simpa using hkeep
      have hxy : R x y := (hk y (by simp)).2 hkf
      refine List.Pairwise.cons ?_ hp
      intro z hz
      rcases List.mem_cons.mp hz with h | h
      · subst h; exact hxy
      · exact htrans x y z hxy (List.rel_of_pairwise_cons hp h)

/-- Pairwise sortedness of the stable sort.  The relation `hcompat` ties the
Boolean comparison to the ordering relation `R`, and `hl` provides, for every
pair in input order, the tie-breaking fact (used with `R` a lexicographic
order to show that ties keep input order). -/
theorem pySort_pairwise_aux {α : Type} {R : α → α → Prop} {keep : α → α → Bool}
    (htrans : ∀ a b c, R a b → R b c → R a c) :
    ∀ (l acc : List α), acc.Pairwise R →
      (∀ x ∈ l, ∀ y ∈ acc, (keep y x = true → R y x) ∧ (keep y x = false → R x y)) →
      l.Pairwise (fun y x => (keep y x = true → R y x) ∧ (keep y x = false → R x y)) →
      (l.foldl (fun acc x => stableInsert keep x acc) acc).Pairwise R := by
  intro l
  induction l with
  | nil => intro acc hacc _ _; simpa using hacc
  | cons x xs ih =>
    intro acc hacc hcross hl
    simp only [List.foldl_cons]
    refine ih (stableInsert keep x acc) ?_ ?_ hl.tail
    · exact stableInsert_pairwise htrans x acc hacc (fun y hy => hcross x (by simp) y hy)
    · intro x' hx' y hy
      rcases (mem_stableInsert keep x acc y).mp hy with h | h
      · subst h
        exact List.rel_of_pairwise_cons hl hx'
      · exact hcross x' (by simp [hx']) y h

theorem pySort_pairwise {α : Type} {R : α → α → Prop} {keep : α → α → Bool}
    (htrans : ∀ a b c, R a b → R b c → R a c) (l : List α)
    (hl : l.Pairwise (fun y x => (keep y x = true → R y x) ∧ (keep y x = false → R x y))) :
    (pySort keep l).Pairwise R :=
  pySort_pairwise_aux htrans l [] List.Pairwise.nil (by simp) hl

/-! ## The dependency graph (`dependency_graph.py`)

`networkx.DiGraph` is modelled concretely: `nodes` is the insertion-ordered
node list (no duplicates are ever appended), `adj` the insertion-ordered edge
list of a *simple* digraph (`add_edge` is idempotent).  `successors` /
`predecessors` reproduce networkx behaviour: for a node that is not in the
graph they raise `NetworkXError`, modelled with `Except`. -/

structure DiGraph where
  nodes : List String
  adj : List (String × String)
deriving Repr, DecidableEq

def DiGraph.empty : DiGraph := ⟨[], []⟩

/-- `networkx.DiGraph.add_node`. -/
def addNode (g : DiGraph) (u : String) : DiGraph :=
  if u ∈ g.nodes then g else ⟨g.nodes ++ [u], g.adj⟩

/-- `networkx.DiGraph.add_edge` (also inserts missing endpoints as nodes). -/
def addEdge (g : DiGraph) (u v : String) : DiGraph :=
  let g1 := addNode (addNode g u) v
  if (u, v) ∈ g1.adj then g1 else ⟨g1.nodes, g1.adj ++ [(u, v)]⟩

/-- `networkx.DiGraph.successors(n)`: raises `NetworkXError` when `n` is not a
node of the graph, otherwise iterates the adjacency of `n` in edge-insertion
order. -/
def successors (g : DiGraph) (u : String) : Except String (List String) :=
  if u ∈ g.nodes then
    Except.ok ((g.adj.filter (fun e => e.1 = u)).map (fun e => e.2))
  else
    Except.error ("The node " ++ u ++ " is not in the digraph.")

/-- `networkx.DiGraph.predecessors(n)`. -/
def predecessors (g : DiGraph) (u : String) : Except String (List String) :=
  if u ∈ g.nodes then
    Except.ok ((g.adj.filter (fun e => e.2 = u)).map (fun e => e.1))
  else
    Except.error ("The node " ++ u ++ " is not in the digraph.")

/-- `networkx.DiGraph.in_degree` of one node (the graph is simple, so this is
the number of distinct predecessors). -/
def inDegree (g : DiGraph) (v : String) : Nat :=
  (g.adj.filter (fun e => e.2 = v)).length

/-- The repository map entries that `build_graph` reads: each file has a
`'references'` list (`info.get('references', [])`). -/
structure RepoInfo where
  definitions : List Definition
  references : List Reference
deriving Repr, DecidableEq

/-- A `RepoMap` / `symbol_to_file` dictionary, as an insertion-ordered
association list. -/
def lookupTable (t : List (String × List String)) (n : String) : List String :=
  match t.find? (fun p => p.1 = n) with
  | some p => p.2
  | none => []

/-- `DependencyGraphBuilder.build_graph`: add every repo-map key as a node,
then, for every reference of every file, add an edge to every file defining
the referenced name (skipping self-references).  The falsy-name guard
`if ref_name:` is the test `ref.name ≠ ""`. -/
def build_graph (repo_map : List (String × RepoInfo))
    (symbol_to_file : List (String × List String)) : DiGraph :=
  let g0 := repo_map.foldl (fun g p => addNode g p.1) DiGraph.empty
  repo_map.foldl
    (fun g p =>
      p.2.references.foldl
        (fun g ref =>
          if ref.name ≠ "" then
            (lookupTable symbol_to_file ref.name).foldl
              (fun g target => if target ≠ p.1 then addEdge g p.1 target else g) g
          else g)
        g)
    g0

/-- `DependencyGraphBuilder.get_dependencies`. -/
def get_dependencies (g : DiGraph) (file_path : String) : Except String (List String) :=
  successors g file_path

/-- `DependencyGraphBuilder.get_dependents`. -/
def get_dependents (g : DiGraph) (file_path : String) : Except String (List String) :=
  predecessors g file_path

/-- `DependencyGraphBuilder.get_central_files`: empty graph gives `[]`;
otherwise sort the insertion-ordered `(node, in_degree)` pairs with Python's
stable descending sort on the degree and keep the first `n` node names.
`top_n = none` selects the configured instance default. -/
def get_central_files (g : DiGraph) (top_n : Option Nat) (central_files_top_n : Nat) :
    List String :=
  if g.nodes.isEmpty then []
  else
    let n := top_n.getD central_files_top_n
    let in_degree := g.nodes.map (fun v => (v, inDegree g v))
    let sorted_files := pySort (fun y x => x.2 ≤ y.2) in_degree
    (sorted_files.take n).map (fun p => p.1)

/-- `DependencyGraphBuilder.trace_call_sequence`'s recursive `dfs`, embedded
with a remaining-depth budget: `dfsBudget g r node seq` is `dfs(node, depth)`
with `r = depth_limit + 1 - depth` (so `r = 0` is `depth > depth_limit`, the
guard that stops the recursion).  The `visited` set and the `sequence` list of
the source always hold the same elements in the same insertion order, so one
list serves as both. -/
def dfsBudget (g : DiGraph) : Nat → String → List String → List String
  | 0, _, seq => seq
  | r + 1, node, seq =>
    if node ∈ seq then seq
    else
      ((g.adj.filter (fun e => e.1 = node)).map (fun e => e.2)).foldl
        (fun s n => dfsBudget g r n s) (seq ++ [node])

/-- `DependencyGraphBuilder.trace_call_sequence(start_file, max_depth)`.  The
theorems below consider only `start_file ∈ g.nodes` (for an unknown start the
source raises `NetworkXError` out of `graph.successors`). -/
def trace_call_sequence (g : DiGraph) (start_file : String) (max_depth : Nat) : List String :=
  dfsBudget g (max_depth + 1) start_file []

/-- Reachability along graph edges by a path of at most `d` edges. -/
inductive ReachIn (g : DiGraph) : Nat → String → String → Prop
  | refl (d : Nat) (x : String) : ReachIn g d x x
  | step (d : Nat) (x y z : String) : (x, y) ∈ g.adj → ReachIn g d y z →
      ReachIn g (d + 1) x z

/-! ### Graph construction lemmas -/

theorem addNode_adj (g : DiGraph) (u : String) : (addNode g u).adj = g.adj := by
  unfold addNode
  split <;> rfl

theorem mem_addEdge_adj (g : DiGraph) (u v : String) (e : String × String) :
    e ∈ (addEdge g u v).adj ↔ e ∈ g.adj ∨ e = (u, v) := by
  simp only [addEdge]
  split
  · rename_i hmem
    rw [addNode_adj, addNode_adj] at hmem
    rw [addNode_adj, addNode_adj]
    constructor
    · exact Or.inl
    · rintro (h | rfl)
      · exact h
      · exact hmem
  · show e ∈ (addNode (addNode g u) v).adj ++ [(u, v)] ↔ _
    rw [addNode_adj, addNode_adj]
    simp [List.mem_append]

theorem addEdge_adj_nodup (g : DiGraph) (u v : String) (h : g.adj.Nodup) :
    (addEdge g u v).adj.Nodup := by
  simp only [addEdge]
  split
  · rename_i hmem
    rw [addNode_adj, addNode_adj]
    exact h
  · rename_i hmem
    rw [addNode_adj, addNode_adj] at hmem
    show ((addNode (addNode g u) v).adj ++ [(u, v)]).Nodup
    rw [addNode_adj, addNode_adj]
    simpa [List.nodup_append] using ⟨h, hmem⟩

theorem nodesFold_adj (rm : List (String × RepoInfo)) :
    ∀ g : DiGraph, (rm.foldl (fun g p => addNode g p.1) g).adj = g.adj := by
  induction rm with
  | nil => intro g; rfl
  | cons p ps ih => intro g; rw [List.foldl_cons, ih, addNode_adj]

theorem targetsFold_adj_mem (A : String) (targets : List String) :
    ∀ (g : DiGraph) (e : String × String),
      e ∈ ((targets.foldl (fun g target => if target ≠ A then addEdge g A target else g) g).adj) ↔
        e ∈ g.adj ∨ ∃ t ∈ targets, t ≠ A ∧ e = (A, t) := by
  induction targets with
  | nil => intro g e; simp
  | cons t ts ih =>
    intro g e
    simp only [List.foldl_cons]
    by_cases ht : t ≠ A
    · rw [if_pos ht, ih, mem_addEdge_adj]
      constructor
      · rintro (⟨h | h⟩ | ⟨t', ht', hne, he⟩)
        · exact Or.inl h
        · exact Or.inr ⟨t, by simp, ht, h⟩
        · exact Or.inr ⟨t', by simp [ht'], hne, he⟩
      · rintro (h | ⟨t', ht', hne, he⟩)
        · exact Or.inl (Or.inl h)
        · rcases List.mem_cons.mp ht' with h' | h'
          · subst h'; exact Or.inl (Or.inr he)
          · exact Or.inr ⟨t', h', hne, he⟩
    · rw [if_neg ht, ih]
      push_neg at ht
      constructor
      · rintro (h | ⟨t', ht', hne, he⟩)
        · exact Or.inl h
        · exact Or.inr ⟨t', by simp [ht'], hne, he⟩
      · rintro (h | ⟨t', ht', hne, he⟩)
        · exact Or.inl h
        · rcases List.mem_cons.mp ht' with h' | h'
          · subst h'; exact absurd ht hne
          · exact Or.inr ⟨t', h', hne, he⟩

theorem refsFold_adj_mem (A : String) (symbol_to_file : List (String × List String))
    (refs : List Reference) :
    ∀ (g : DiGraph) (e : String × String),
      e ∈ ((refs.foldl
          (fun g ref =>
            if ref.name ≠ "" then
              (lookupTable symbol_to_file ref.name).foldl
                (fun g target => if target ≠ A then addEdge g A target else g) g
            else g) g).adj) ↔
        e ∈ g.adj ∨ ∃ ref ∈ refs, ref.name ≠ "" ∧
          ∃ t ∈ lookupTable symbol_to_file ref.name, t ≠ A ∧ e = (A, t) := by
  induction refs with
  | nil => intro g e; simp
  | cons r rs ih =>
    intro g e
    simp only [List.foldl_cons]
    by_cases hr : r.name ≠ ""
    · rw [if_pos hr, ih, targetsFold_adj_mem]
      constructor
      · rintro (⟨h | ⟨t, ht, hne, he⟩⟩ | ⟨r', hr', hrn, t, ht, hne, he⟩)
        · exact Or.inl h
        · exact Or.inr ⟨r, by simp, hr, t, ht, hne, he⟩
        · exact Or.inr ⟨r', by simp [hr'], hrn, t, ht, hne, he⟩
      · rintro (h | ⟨r', hr', hrn, t, ht, hne, he⟩)
        · exact Or.inl (Or.inl h)
        · rcases List.mem_cons.mp hr' with h' | h'
          · subst h'; exact Or.inl (Or.inr ⟨t, ht, hne, he⟩)
          · exact Or.inr ⟨r', h', hrn, t, ht, hne, he⟩
    · rw [if_neg hr, ih]
      push_neg at hr
      constructor
      · rintro (h | ⟨r', hr', hrn, rest⟩)
        · exact Or.inl h
        · exact Or.inr ⟨r', by simp [hr'], hrn, rest⟩
      · rintro (h | ⟨r', hr', hrn, rest⟩)
        · exact Or.inl h
        · rcases List.mem_cons.mp hr' with h' | h'
          · subst h'; exact absurd hr hrn
          · exact Or.inr ⟨r', h', hrn, rest⟩

theorem build_graph_adj_mem (rm : List (String × RepoInfo))
    (st : List (String × List String)) (e : String × String) :
    e ∈ (build_graph rm st).adj ↔
      ∃ p ∈ rm, ∃ ref ∈ p.2.references, ref.name ≠ "" ∧
        ∃ t ∈ lookupTable st ref.name, t ≠ p.1 ∧ e = (p.1, t) := by
  unfold build_graph
  have haux :
      ∀ (l : List (String × RepoInfo)) (g : DiGraph),
        e ∈ ((l.foldl
            (fun g p =>
              p.2.references.foldl
                (fun g ref =>
                  if ref.name ≠ "" then
                    (lookupTable st ref.name).foldl
                      (fun g target => if target ≠ p.1 then addEdge g p.1 target else g) g
                  else g)
                g) g).adj) ↔
          e ∈ g.adj ∨ ∃ p ∈ l, ∃ ref ∈ p.2.references, ref.name ≠ "" ∧
            ∃ t ∈ lookupTable st ref.name, t ≠ p.1 ∧ e = (p.1, t) := by
    intro l
    induction l with
    | nil => intro g; simp
    | cons p ps ih =>
      intro g
      simp only [List.foldl_cons]
      rw [ih, refsFold_adj_mem]
      constructor
      · rintro (⟨h | ⟨r, hr, hrn, rest⟩⟩ | ⟨p', hp', rest⟩)
        · exact Or.inl h
        · exact Or.inr ⟨p, by simp, r, hr, hrn, rest⟩
        · exact Or.inr ⟨p', by simp [hp'], rest⟩
      · rintro (h | ⟨p', hp', rest⟩)
        · exact Or.inl (Or.inl h)
        · rcases List.mem_cons.mp hp' with h' | h'
          · subst h'; exact Or.inl (Or.inr rest)
          · exact Or.inr ⟨p', h', rest⟩
  rw [haux]
  rw [nodesFold_adj]
  simp [DiGraph.empty]

theorem build_graph_adj_nodup (rm : List (String × RepoInfo))
    (st : List (String × List String)) : (build_graph rm st).adj.Nodup := by
  unfold build_graph
  have hbase : ((rm.foldl (fun g p => addNode g p.1) DiGraph.empty).adj).Nodup := by
    rw [nodesFold_adj]
    simp [DiGraph.empty]
  refine foldl_preserves (fun g : DiGraph => g.adj.Nodup) _ ?_ rm _ hbase
  intro g p hg
  refine foldl_preserves (fun g : DiGraph => g.adj.Nodup) _ ?_ p.2.references g hg
  intro g r hg'
  split
  · refine foldl_preserves (fun g : DiGraph => g.adj.Nodup) _ ?_ (lookupTable st r.name) g hg'
    intro g t hg''
    split
    · exact addEdge_adj_nodup g p.1 t hg''
    · exact hg''
  · exact hg'

/-! ### Traversal lemmas -/

theorem foldl_extend {α : Type} (f : List String → α → List String)
    (hf : ∀ s a, ∃ t, f s a = s ++ t) :
    ∀ (l : List α) (s : List String), ∃ t, l.foldl f s = s ++ t := by
  intro l
  induction l with
  | nil => intro s; exact ⟨[], by simp⟩
  | cons a as ih =>
    intro s
    obtain ⟨t1, ht1⟩ := hf s a
    obtain ⟨t2, ht2⟩ := ih (f s a)
    exact ⟨t1 ++ t2, by rw [List.foldl_cons, ht2, ht1, List.append_assoc]⟩

theorem foldl_mem_cases {α : Type} (f : List String → α → List String) (Q : α → String → Prop)
    (hnew : ∀ s a y, y ∈ f s a → y ∈ s ∨ Q a y) :
    ∀ (l : List α) (s : List String) (y : String),
      y ∈ l.foldl f s → y ∈ s ∨ ∃ a ∈ l, Q a y := by
  intro l
  induction l with
  | nil => intro s y hy; exact Or.inl hy
  | cons a as ih =>
    intro s y hy
    rcases ih (f s a) y hy with h | ⟨a', ha', hq⟩
    · rcases hnew s a y h with h' | h'
      · exact Or.inl h'
      · exact Or.inr ⟨a, by simp, h'⟩
    · exact Or.inr ⟨a', by simp [ha'], hq⟩

theorem dfsBudget_extend (g : DiGraph) :
    ∀ (r : Nat) (node : String) (seq : List String),
      ∃ t, dfsBudget g r node seq = seq ++ t := by
  intro r
  induction r with
  | zero => intro node seq; exact ⟨[], by simp [dfsBudget]⟩
  | succ r ih =>
    intro node seq
    rw [dfsBudget]
    split
    · exact ⟨[], by simp⟩
    · obtain ⟨t, ht⟩ := foldl_extend (fun s n => dfsBudget g r n s) (fun s a => ih a s)
        ((g.adj.filter (fun e => e.1 = node)).map (fun e => e.2)) (seq ++ [node])
      exact ⟨node :: t, by simpa using ht⟩

theorem dfsBudget_nodup (g : DiGraph) :
    ∀ (r : Nat) (node : String) (seq : List String),
      seq.Nodup → (dfsBudget g r node seq).Nodup := by
  intro r
  induction r with
  | zero => intro node seq h; simpa [dfsBudget] using h
  | succ r ih =>
    intro node seq h
    rw [dfsBudget]
    split
    · exact h
    · rename_i hnode
      refine foldl_preserves List.Nodup (fun s n => dfsBudget g r n s) ?_ _ _ ?_
      · intro s a hs
        exact ih a s hs
      · simp [List.nodup_append, h, hnode]

theorem mem_filter_map_adj (g : DiGraph) (node s : String)
    (hs : s ∈ (g.adj.filter (fun e => e.1 = node)).map (fun e => e.2)) :
    (node, s) ∈ g.adj := by
  simp only [List.mem_map, List.mem_filter] at hs
  obtain ⟨e, ⟨he, hfst⟩, hsnd⟩ := hs
  have : e = (node, s) := by
    cases e
    simp at hfst hsnd
    simp [hfst, hsnd]
  rw [this] at he
  exact he

theorem dfsBudget_reach (g : DiGraph) :
    ∀ (r : Nat) (node : String) (seq : List String) (y : String),
      y ∈ dfsBudget g r node seq →
      y ∈ seq ∨ ∃ r', r = r' + 1 ∧ ReachIn g r' node y := by
  intro r
  induction r with
  | zero => intro node seq y hy; exact Or.inl (by simpa [dfsBudget] using hy)
  | succ r ih =>
    intro node seq y hy
    rw [dfsBudget] at hy
    split at hy
    · exact Or.inl hy
    · have := foldl_mem_cases (fun s n => dfsBudget g r n s)
        (fun a y => ∃ r', r = r' + 1 ∧ ReachIn g r' a y)
        (fun s a y h => ih a s y h) _ _ y hy
      rcases this with h | ⟨a, ha, r', hr', hreach⟩
      · rcases List.mem_append.mp h with h' | h'
        · exact Or.inl h'
        · refine Or.inr ⟨r, rfl, ?_⟩
          have : y = node := by simpa using h'
          rw [this]
          exact ReachIn.refl r node
      · refine Or.inr ⟨r, rfl, ?_⟩
        rw [hr']
        exact ReachIn.step r' node a y (mem_filter_map_adj g node a ha) hreach

theorem dfsBudget_zero_foldl (g : DiGraph) :
    ∀ (l : List String) (s : List String),
      l.foldl (fun s n => dfsBudget g 0 n s) s = s := by
  intro l
  induction l with
  | nil => intro s; rfl
  | cons a as ih => intro s; rw [List.foldl_cons]; exact ih _

/-! ### Python string comparison (code-point lexicographic order) -/

/-- Python `<` on strings: lexicographic comparison of code points. -/
def charListLt : List Char → List Char → Bool
  | [], [] => false
  | [], _ :: _ => true
  | _ :: _, [] => false
  | a :: as, b :: bs =>
    if a.toNat < b.toNat then true
    else if b.toNat < a.toNat then false
    else charListLt as bs

def pyStrLt (a b : String) : Bool :=
  charListLt a.data b.data

theorem charListLt_trans :
    ∀ a b c : List Char, charListLt a b = true → charListLt b c = true →
      charListLt a c = true := by
  intro a
  induction a with
  | nil =>
    intro b c hab hbc
    cases b with
    | nil => simpa [charListLt] using hbc
    | cons y ys =>
      cases c with
      | nil => simp [charListLt] at hbc
      | cons z zs => simp [charListLt]
  | cons x xs ih =>
    intro b c hab hbc
    cases b with
    | nil => simp [charListLt] at hab
    | cons y ys =>
      cases c with
      | nil => simp [charListLt] at hbc
      | cons z zs =>
        simp only [charListLt] at hab hbc ⊢
        by_cases hxy : x.toNat < y.toNat
        · by_cases hyz : y.toNat < z.toNat
          · simp [show x.toNat < z.toNat by omega]
          · simp only [if_pos hxy] at hab
            by_cases hzy : z.toNat < y.toNat
            · simp [if_neg hyz, if_pos hzy] at hbc
            · have : y.toNat = z.toNat := by omega
              simp [show x.toNat < z.toNat by omega]
        · by_cases hyx : y.toNat < x.toNat
          · simp [if_neg hxy, if_pos hyx] at hab
          · have hxy' : x.toNat = y.toNat := by omega
            simp only [if_neg hxy, if_neg hyx] at hab
            by_cases hyz : y.toNat < z.toNat
            · simp [show x.toNat < z.toNat by omega]
            · by_cases hzy : z.toNat < y.toNat
              · simp [if_neg hyz, if_pos hzy] at hbc
              · have hyz' : y.toNat = z.toNat := by omega
                simp only [if_neg hyz, if_neg hzy] at hbc
                have h1 : ¬ x.toNat < z.toNat := by omega
                have h2 : ¬ z.toNat < x.toNat := by omega
                simp only [if_neg h1, if_neg h2]
                exact ih ys zs hab hbc

theorem pyStrLt_trans (a b c : String) (hab : pyStrLt a b = true)
    (hbc : pyStrLt b c = true) : pyStrLt a c = true :=
  charListLt_trans a.data b.data c.data hab hbc

/-! ## Claims C1 to C4: the dependency graph -/

/-- Concrete repository map of the specification's Scenario 1: `A.py` defines
`foo`, `B.py` calls `foo`. -/
def repoMapScenario1 : List (String × RepoInfo) :=
  [("A.py", { definitions := [{ type := "function", name := "foo", line := 1 }],
              references := [] }),
   ("B.py", { definitions := [],
              references := [{ type := "function_call", name := "foo", line := 1 }] })]

def symtabScenario1 : List (String × List String) :=
  [("foo", ["A.py"])]

/-- C1: in the graph built by `build_graph` over a frozen RepoMap and
SymbolTable, an edge `A → B` exists iff some reference in `A` has a name the
SymbolTable maps to a list containing `B` and `A ≠ B`; repeated resolutions to
the same pair yield a single edge (the edge list has no duplicates); and no
file ever appears in its own `get_dependencies` result.  The hypotheses state
dictionary well-formedness of the frozen inputs, as the indexer produces them:
repo-map keys are unique, and the symbol table has no entry for the empty name
(the indexer only records names that pass the `if symbol_name:` guard). -/
theorem C1_build_graph_edges (rm : List (String × RepoInfo))
    (st : List (String × List String))
    (hnd : (rm.map Prod.fst).Nodup) (hst : lookupTable st "" = []) :
    (∀ A B : String, ((A, B) ∈ (build_graph rm st).adj ↔
        ∃ info : RepoInfo, (A, info) ∈ rm ∧ ∃ ref ∈ info.references,
          B ∈ lookupTable st ref.name ∧ A ≠ B)) ∧
    (build_graph rm st).adj.Nodup ∧
    (∀ f l, get_dependencies (build_graph rm st) f = Except.ok l → f ∉ l) := by
  have hchar := build_graph_adj_mem rm st
  refine ⟨?_, build_graph_adj_nodup rm st, ?_⟩
  · intro A B
    rw [hchar]
    constructor
    · rintro ⟨⟨pk, pv⟩, hp, ref, href, hname, t, ht, hne, heq⟩
      obtain ⟨h1, h2⟩ := Prod.mk.injEq _ _ _ _ ▸ heq
      simp only [Prod.mk.injEq] at heq
      obtain ⟨hA, hB⟩ := heq
      subst hA
      subst hB
      exact ⟨pv, hp, ref, href, ht, fun h => hne h.symm⟩
    · rintro ⟨info, hp, ref, href, hB, hAB⟩
      have hname : ref.name ≠ "" := by
        intro h
        rw [h, hst] at hB
        cases hB
      exact ⟨(A, info), hp, ref, href, hname, B, hB, fun h => hAB h.symm, rfl⟩
  · intro f l hok hf
    unfold get_dependencies successors at hok
    split at hok
    · have hl : l = ((build_graph rm st).adj.filter (fun e => e.1 = f)).map (fun e => e.2) := by
        cases hok; rfl
      rw [hl] at hf
      have : (f, f) ∈ (build_graph rm st).adj := mem_filter_map_adj _ f f hf
      rw [hchar (f, f)] at this
      obtain ⟨p, _, _, _, _, t, _, hne, heq⟩ := this
      simp only [Prod.mk.injEq] at heq
      exact hne (heq.2.symm.trans heq.1)
    · cases hok

/-- Witness for C1 at the Scenario 1 inputs. -/
theorem C1_build_graph_edges_witness :
    ((repoMapScenario1.map Prod.fst).Nodup ∧ lookupTable symtabScenario1 "" = []) ∧
    ((∀ A B : String, ((A, B) ∈ (build_graph repoMapScenario1 symtabScenario1).adj ↔
        ∃ info : RepoInfo, (A, info) ∈ repoMapScenario1 ∧ ∃ ref ∈ info.references,
          B ∈ lookupTable symtabScenario1 ref.name ∧ A ≠ B)) ∧
     (build_graph repoMapScenario1 symtabScenario1).adj.Nodup ∧
     (∀ f l, get_dependencies (build_graph repoMapScenario1 symtabScenario1) f = Except.ok l →
        f ∉ l)) :=
  ⟨⟨by decide, by decide⟩,
   C1_build_graph_edges repoMapScenario1 symtabScenario1 (by decide) (by decide)⟩

/-- C2 counterexample: querying an unknown path does *not* return an empty
collection — `graph.successors`/`graph.predecessors` raise `NetworkXError`
(`Except.error` in the embedding) for a node that is not in the digraph, even
on a well-formed graph. -/
theorem C2_counterexample :
    get_dependencies (build_graph repoMapScenario1 symtabScenario1) "missing.py" =
      Except.error "The node missing.py is not in the digraph." ∧
    get_dependents (build_graph repoMapScenario1 symtabScenario1) "missing.py" =
      Except.error "The node missing.py is not in the digraph." := by
  constructor <;> rfl

/-- C2 as amended: for a path that *is* a node of the graph, `dependencies` and
`dependents` return a list — empty when the node has no outgoing (resp.
incoming) edges — and for an unknown path both queries raise `NetworkXError`
instead of returning an empty collection. -/
theorem C2_queries_amended (g : DiGraph) (p : String) :
    (p ∈ g.nodes →
      (∃ l, get_dependencies g p = Except.ok l) ∧
      (∃ l, get_dependents g p = Except.ok l)) ∧
    (p ∈ g.nodes → (∀ e ∈ g.adj, e.1 ≠ p) → get_dependencies g p = Except.ok []) ∧
    (p ∈ g.nodes → (∀ e ∈ g.adj, e.2 ≠ p) → get_dependents g p = Except.ok []) ∧
    (p ∉ g.nodes →
      (∃ msg, get_dependencies g p = Except.error msg) ∧
      (∃ msg, get_dependents g p = Except.error msg)) := by
  refine ⟨?_, ?_, ?_, ?_⟩
  · intro hp
    constructor
    · exact ⟨_, by unfold get_dependencies successors; rw [if_pos hp]⟩
    · exact ⟨_, by unfold get_dependents predecessors; rw [if_pos hp]⟩
  · intro hp hno
    unfold get_dependencies successors
    rw [if_pos hp]
    have : g.adj.filter (fun e => e.1 = p) = [] := by
      rw [List.filter_eq_nil_iff]
      intro e he
      simpa using hno e he
    rw [this]
    rfl
  · intro hp hno
    unfold get_dependents predecessors
    rw [if_pos hp]
    have : g.adj.filter (fun e => e.2 = p) = [] := by
      rw [List.filter_eq_nil_iff]
      intro e he
      simpa using hno e he
    rw [this]
    rfl
  · intro hp
    constructor
    · exact ⟨_, by unfold get_dependencies successors; rw [if_neg hp]⟩
    · exact ⟨_, by unfold get_dependents predecessors; rw [if_neg hp]⟩

/-- Witness for the amended C2: on the Scenario 1 graph, `A.py` is a node with
no outgoing edge, and its dependency query returns `ok []`. -/
theorem C2_queries_amended_witness :
    ("A.py" ∈ (build_graph repoMapScenario1 symtabScenario1).nodes ∧
     (∀ e ∈ (build_graph repoMapScenario1 symtabScenario1).adj, e.1 ≠ "A.py")) ∧
    get_dependencies (build_graph repoMapScenario1 symtabScenario1) "A.py" = Except.ok [] :=
  ⟨⟨by decide, by decide⟩,
   (C2_queries_amended (build_graph repoMapScenario1 symtabScenario1) "A.py").2.1
     (by decide) (by decide)⟩

/-- Repository map whose insertion order is not lexical: key `"b.py"` was
indexed before `"a.py"`. -/
def repoMapBA : List (String × RepoInfo) :=
  [("b.py", { definitions := [], references := [] }),
   ("a.py", { definitions := [], references := [] })]

/-- C3 counterexample: on the graph built from a repository map whose keys are
not in lexical order, both files have in-degree 0 (a tie), yet
`get_central_files` returns `["b.py", "a.py"]` — the tie is broken by node
insertion order, not by lexical path order, which would demand `"a.py"` first
(`pyStrLt "a.py" "b.py"` holds). -/
theorem C3_counterexample :
    inDegree (build_graph repoMapBA []) "a.py" = inDegree (build_graph repoMapBA []) "b.py" ∧
    get_central_files (build_graph repoMapBA []) (some 2) 20 = ["b.py", "a.py"] ∧
    pyStrLt "a.py" "b.py" = true := by
  refine ⟨by decide, by decide, by decide⟩

/-- C3 as amended: `get_central_files(n)` returns at most `n` paths, ordered by
in-degree descending, and the sort is Python's stable sort, so ties between
equal in-degree nodes are broken by node insertion order (the repo-map key
order) rather than by lexical path order; when the node list happens to be
lexically sorted — as the indexer's sorted file walk produces — the tie-break
coincides with lexical order.  Repeated calls are identical because the
function is a pure computation over the frozen graph. -/
theorem C3_central_files_amended (g : DiGraph) (topN : Option Nat) (dflt : Nat) :
    (get_central_files g topN dflt).length ≤ topN.getD dflt ∧
    List.Pairwise (fun a b => inDegree g b ≤ inDegree g a) (get_central_files g topN dflt) ∧
    (g.nodes.Pairwise (fun a b => pyStrLt a b = true) →
      List.Pairwise
        (fun a b => inDegree g b < inDegree g a ∨
          (inDegree g a = inDegree g b ∧ pyStrLt a b = true))
        (get_central_files g topN dflt)) := by
  by_cases hempty : g.nodes.isEmpty
  · unfold get_central_files
    rw [if_pos hempty]
    exact ⟨by simp, by simp, fun _ => by simp⟩
  · have hform : get_central_files g topN dflt =
        ((pySort (fun y x : String × Nat => decide (x.2 ≤ y.2))
            (g.nodes.map (fun v => (v, inDegree g v)))).take (topN.getD dflt)).map
          (fun p => p.1) := by
      unfold get_central_files
      rw [if_neg hempty]
    have hsortmem : ∀ p ∈ pySort (fun y x : String × Nat => decide (x.2 ≤ y.2))
        (g.nodes.map (fun v => (v, inDegree g v))), p.2 = inDegree g p.1 := by
      intro p hp
      have := (pySort_perm (fun y x : String × Nat => decide (x.2 ≤ y.2))
        (g.nodes.map (fun v => (v, inDegree g v)))).mem_iff.mp hp
      obtain ⟨v, _, hv⟩ := List.mem_map.mp this
      rw [← hv]
    refine ⟨?_, ?_, ?_⟩
    · rw [hform]
      simp only [List.length_map]
      exact (List.length_take_le _ _)
    · rw [hform]
      rw [List.pairwise_map]
      have hpair : List.Pairwise (fun a b : String × Nat => b.2 ≤ a.2)
          (pySort (fun y x : String × Nat => decide (x.2 ≤ y.2))
            (g.nodes.map (fun v => (v, inDegree g v)))) := by
        refine pySort_pairwise
          (fun (a b c : String × Nat) (hab : b.2 ≤ a.2) (hbc : c.2 ≤ b.2) =>
            Nat.le_trans hbc hab) _ ?_
        refine List.Pairwise.imp ?_ (List.pairwise_of_forall (fun _ _ => trivial))
        intro y x _
        constructor
        · intro h; exact of_decide_eq_true h
        · intro h
          have := of_decide_eq_false h
          omega
      refine List.Pairwise.imp_of_mem ?_ (hpair.sublist (List.take_sublist _ _))
      intro a b ha hb hab
      have ha' := hsortmem a ((List.take_sublist _ _).mem ha)
      have hb' := hsortmem b ((List.take_sublist _ _).mem hb)
      rw [← ha', ← hb']
      exact hab
    · intro hlex
      rw [hform]
      rw [List.pairwise_map]
      have hinput : List.Pairwise (fun a b : String × Nat => pyStrLt a.1 b.1 = true)
          (g.nodes.map (fun v => (v, inDegree g v))) := by
        rw [List.pairwise_map]
        exact hlex
      have hpair : List.Pairwise
          (fun a b : String × Nat => b.2 < a.2 ∨ (a.2 = b.2 ∧ pyStrLt a.1 b.1 = true))
          (pySort (fun y x : String × Nat => decide (x.2 ≤ y.2))
            (g.nodes.map (fun v => (v, inDegree g v)))) := by
        refine pySort_pairwise ?_ _ ?_
        · rintro a b c (hab | ⟨hab, hab'⟩) (hbc | ⟨hbc, hbc'⟩)
          · exact Or.inl (lt_trans hbc hab)
          · exact Or.inl (by omega)
          · exact Or.inl (by omega)
          · exact Or.inr ⟨by omega, pyStrLt_trans _ _ _ hab' hbc'⟩
        · refine List.Pairwise.imp ?_ hinput
          intro y x hyx
          constructor
          · intro h
            have h' := of_decide_eq_true h
            rcases Nat.lt_or_ge x.2 y.2 with hlt | hge
            · exact Or.inl hlt
            · exact Or.inr ⟨by omega, hyx⟩
          · intro h
            have h' := of_decide_eq_false h
            exact Or.inl (by omega)
      refine List.Pairwise.imp_of_mem ?_ (hpair.sublist (List.take_sublist _ _))
      intro a b ha hb hab
      have ha' := hsortmem a ((List.take_sublist _ _).mem ha)
      have hb' := hsortmem b ((List.take_sublist _ _).mem hb)
      rw [← ha', ← hb']
      exact hab

/-- Witness for the amended C3 at a concrete graph with lexically sorted nodes. -/
theorem C3_central_files_amended_witness :
    ((build_graph repoMapScenario1 symtabScenario1).nodes.Pairwise
        (fun a b => pyStrLt a b = true)) ∧
    (get_central_files (build_graph repoMapScenario1 symtabScenario1) (some 1) 20).length ≤ 1 ∧
    List.Pairwise
      (fun a b =>
        inDegree (build_graph repoMapScenario1 symtabScenario1) b <
            inDegree (build_graph repoMapScenario1 symtabScenario1) a ∨
          (inDegree (build_graph repoMapScenario1 symtabScenario1) a =
              inDegree (build_graph repoMapScenario1 symtabScenario1) b ∧
            pyStrLt a b = true))
      (get_central_files (build_graph repoMapScenario1 symtabScenario1) (some 1) 20) :=
  ⟨by decide,
   (C3_central_files_amended (build_graph repoMapScenario1 symtabScenario1) (some 1) 20).1,
   (C3_central_files_amended (build_graph repoMapScenario1 symtabScenario1) (some 1) 20).2.2
     (by decide)⟩

/-- C4: for a start node of the graph and any depth bound `d`, the traversal is
cycle-safe and depth-bounded: it starts with `start`, contains no duplicates,
every entry is reachable from `start` by at most `d` edges, and a bound of `0`
yields exactly `[start]`. -/
theorem C4_trace_call_sequence (g : DiGraph) (start : String) (d : Nat)
    (hstart : start ∈ g.nodes) :
    (∃ t, trace_call_sequence g start d = start :: t) ∧
    (trace_call_sequence g start d).Nodup ∧
    (∀ y ∈ trace_call_sequence g start d, ReachIn g d start y) ∧
    trace_call_sequence g start 0 = [start] := by
  refine ⟨?_, ?_, ?_, ?_⟩
  · unfold trace_call_sequence
    rw [dfsBudget]
    rw [if_neg (by simp)]
    obtain ⟨t, ht⟩ := foldl_extend (fun s n => dfsBudget g d n s)
      (fun s a => dfsBudget_extend g d a s)
      ((g.adj.filter (fun e => e.1 = start)).map (fun e => e.2)) ([] ++ [start])
    exact ⟨t, by simpa using ht⟩
  · exact dfsBudget_nodup g (d + 1) start [] List.nodup_nil
  · intro y hy
    rcases dfsBudget_reach g (d + 1) start [] y hy with h | ⟨r', hr', hreach⟩
    · cases h
    · have : r' = d := by omega
      rw [← this]
      exact hreach
  · unfold trace_call_sequence
    rw [dfsBudget]
    rw [if_neg (by simp)]
    exact dfsBudget_zero_foldl g _ _

/-- Witness for C4: tracing from `B.py` in the Scenario 1 graph. -/
theorem C4_trace_call_sequence_witness :
    ("B.py" ∈ (build_graph repoMapScenario1 symtabScenario1).nodes) ∧
    ((∃ t, trace_call_sequence (build_graph repoMapScenario1 symtabScenario1) "B.py" 5 =
        "B.py" :: t) ∧
     (trace_call_sequence (build_graph repoMapScenario1 symtabScenario1) "B.py" 5).Nodup ∧
     (∀ y ∈ trace_call_sequence (build_graph repoMapScenario1 symtabScenario1) "B.py" 5,
        ReachIn (build_graph repoMapScenario1 symtabScenario1) 5 "B.py" y) ∧
     trace_call_sequence (build_graph repoMapScenario1 symtabScenario1) "B.py" 0 = ["B.py"]) :=
  ⟨by decide,
   C4_trace_call_sequence (build_graph repoMapScenario1 symtabScenario1) "B.py" 5 (by decide)⟩

/-! ## Claim C5: the size-fallback partition -/

/-- C5: for every source string chunked by `_chunk_by_size` with
`max_lines ≥ 1`, the chunk line ranges exactly partition the file's lines:
the list is non-empty, the first chunk starts at line 1, consecutive chunks are
contiguous (`next.start_line = previous.end_line + 1`), the last chunk ends at
the file's line count, and every chunk's range is non-degenerate — hence no
gaps and no overlaps. -/
theorem C5_chunk_by_size_partition (defaultType : String) (nameFmt : Nat → Nat → String)
    (code : String) (maxLines : Nat) (hm : 1 ≤ maxLines) :
    chunk_by_size defaultType nameFmt code maxLines ≠ [] ∧
    (∃ c cs, chunk_by_size defaultType nameFmt code maxLines = c :: cs ∧ c.start_line = 1) ∧
    (∃ c, (chunk_by_size defaultType nameFmt code maxLines).getLast? = some c ∧
       c.end_line = (splitLines code).length) ∧
    List.Chain' (fun a b => b.start_line = a.end_line + 1)
      (chunk_by_size defaultType nameFmt code maxLines) ∧
    (∀ c ∈ chunk_by_size defaultType nameFmt code maxLines, c.start_line ≤ c.end_line) := by
  have h := chunkBySizeGo_spec defaultType nameFmt (maxLines - 1) (splitLines code) 0
    (splitLines_ne_nil code)
  obtain ⟨h1, ⟨c, cs, heq, hc⟩, ⟨cl, hcl, hcle⟩, h4, h5⟩ := h
  exact ⟨h1, ⟨c, cs, heq, by omega⟩, ⟨cl, hcl, by omega⟩, h4, h5⟩

/-- Witness for C5 on a three-line file with `max_lines = 2`. -/
theorem C5_chunk_by_size_partition_witness :
    1 ≤ 2 ∧
    (chunk_by_size "code_chunk" (fun a b => String.mk []) "alpha\nbeta\ngamma" 2 ≠ [] ∧
     (∃ c cs, chunk_by_size "code_chunk" (fun a b => String.mk []) "alpha\nbeta\ngamma" 2 =
        c :: cs ∧ c.start_line = 1) ∧
     (∃ c, (chunk_by_size "code_chunk" (fun a b => String.mk []) "alpha\nbeta\ngamma" 2).getLast? =
        some c ∧ c.end_line = (splitLines "alpha\nbeta\ngamma").length) ∧
     List.Chain' (fun a b => b.start_line = a.end_line + 1)
       (chunk_by_size "code_chunk" (fun a b => String.mk []) "alpha\nbeta\ngamma" 2) ∧
     (∀ c ∈ chunk_by_size "code_chunk" (fun a b => String.mk []) "alpha\nbeta\ngamma" 2,
        c.start_line ≤ c.end_line)) :=
  ⟨by decide,
   C5_chunk_by_size_partition "code_chunk" (fun a b => String.mk []) "alpha\nbeta\ngamma" 2
     (by decide)⟩

/-! ## Tree-sitter trees

A parse tree node carries exactly what `parser.py` reads: `node.type`, the row
components of `node.start_point` / `node.end_point`, the source text
`code[node.start_byte:node.end_byte]` (carried directly as `text`, abstracting
the byte offsets), named fields (`node.child_by_field_name`), and the ordered
child list (`node.children`, which in tree-sitter also contains the field
children). -/

inductive TSNode where
  | mk (type : String) (startRow endRow : Nat) (text : String)
       (fields : List (String × TSNode)) (children : List TSNode)

def TSNode.type : TSNode → String
  | .mk t _ _ _ _ _ => t

def TSNode.startRow : TSNode → Nat
  | .mk _ s _ _ _ _ => s

def TSNode.endRow : TSNode → Nat
  | .mk _ _ e _ _ _ => e

def TSNode.text : TSNode → String
  | .mk _ _ _ tx _ _ => tx

def TSNode.fields : TSNode → List (String × TSNode)
  | .mk _ _ _ _ fs _ => fs

def TSNode.children : TSNode → List TSNode
  | .mk _ _ _ _ _ cs => cs

/-- `node.child_by_field_name(f)`. -/
def childByFieldName (n : TSNode) (f : String) : Option TSNode :=
  match n.fields.find? (fun p => p.1 = f) with
  | some p => some p.2
  | none => none

/-- `CodeParser._get_node_text` on an optional node: `None` stays `None`,
otherwise the node's source text stripped. -/
def getNodeTextOpt (n : Option TSNode) : Option String :=
  match n with
  | none => none
  | some node => some (pyStrip node.text)

/-- The loop of `CodeParser._get_node_name` for `lexical_declaration` nodes:
first `variable_declarator` child that has a `name` field wins. -/
def lexicalDeclName (default_node_name : String) : List TSNode → String
  | [] => default_node_name
  | c :: cs =>
    if c.type = "variable_declarator" then
      match childByFieldName c "name" with
      | some nn => pyStrip nn.text
      | none => lexicalDeclName default_node_name cs
    else lexicalDeclName default_node_name cs

/-- `CodeParser._get_node_name`. -/
def getNodeName (default_node_name : String) (node : TSNode) : String :=
  match childByFieldName node "name" with
  | some nn => pyStrip nn.text
  | none =>
    if node.type = "lexical_declaration" then lexicalDeclName default_node_name node.children
    else default_node_name

mutual

/-- Structural size of a tree node, the termination measure for tree
traversals. -/
def tsSize : TSNode → Nat
  | .mk _ _ _ _ fs cs => 1 + tsSizeFields fs + tsSizeList cs

def tsSizeFields : List (String × TSNode) → Nat
  | [] => 0
  | p :: fs => tsSize p.2 + tsSizeFields fs

def tsSizeList : List TSNode → Nat
  | [] => 0
  | n :: cs => tsSize n + tsSizeList cs

end

theorem tsSizeList_append (a b : List TSNode) :
    tsSizeList (a ++ b) = tsSizeList a + tsSizeList b := by
  induction a with
  | nil => simp [tsSizeList]
  | cons n q ih => simp [tsSizeList, ih]; omega

theorem tsSize_pos (n : TSNode) : 1 ≤ tsSize n := by
  cases n with
  | mk t s e tx fs cs =>
    rw [tsSize]
    omega

theorem tsSizeList_children_lt (n : TSNode) : tsSizeList n.children < tsSize n := by
  cases n with
  | mk t s e tx fs cs =>
    rw [tsSize, TSNode.children]
    omega

/-- `CodeParser._get_sub_chunks`: a breadth-first search over the subtree of a
large node.  The work queue starts from the node's children; a node whose type
is sub-chunk-eligible is emitted as a chunk and not descended into, any other
node is replaced by its children at the *back* of the queue.  (The source's
`visited_nodes` set can never fire on a tree — each node object is enqueued at
most once — so it has no observable effect and is omitted;
`parent_start_line` is an argument the source never uses.) -/
def getSubChunksLoop (subTypes : List String) (default_node_name : String)
    (lines : List String) : List TSNode → List Chunk → List Chunk
  | [], acc => acc
  | n :: q, acc =>
    if n.type ∈ subTypes then
      getSubChunksLoop subTypes default_node_name lines q
        (acc ++ [{ text := joinNL (sliceLines lines (n.startRow + 1 - 1) (n.endRow + 1)),
                   type := n.type,
                   name := getNodeName default_node_name n,
                   start_line := n.startRow + 1,
                   end_line := n.endRow + 1 }])
    else
      getSubChunksLoop subTypes default_node_name lines (q ++ n.children) acc
termination_by q _ => tsSizeList q
decreasing_by
  · simp only [tsSizeList]
    have := tsSize_pos n
    omega
  · simp only [tsSizeList, tsSizeList_append]
    have := tsSizeList_children_lt n
    omega

/-- The parser configuration (`CodeParser.__init__` arguments that the
chunking and extraction paths read).  The per-language node-type tables are
the dictionary lookups `chunk_node_types.get(lang, [])` /
`sub_chunk_types.get(lang, [])`, modelled as functions. -/
structure ParserCfg where
  max_chunk_lines : Nat
  chunk_node_types : String → List String
  sub_chunk_types : String → List String
  default_chunk_type : String
  default_node_name : String
  default_chunk_name_fmt : Nat → Nat → String

/-- `CodeParser.chunk_code`, Tree-sitter branch (lines 117–154 of
`parser.py`): `tree` is the parse tree produced by `parser.parse(code)`, and
the function receives its root node.  Top-level nodes whose type is in the
per-language table become chunks; an oversized node is replaced by its
sub-chunks when any exist; if no top-level declaration is found the size
fallback runs.  No sort is applied on this path. -/
def chunk_code_treesitter (cfg : ParserCfg) (lang : String) (tree : TSNode)
    (code : String) : List Chunk :=
  let lines := splitLines code
  let top_level_nodes := tree.children.filter (fun n => n.type ∈ cfg.chunk_node_types lang)
  if top_level_nodes.isEmpty then
    chunk_by_size cfg.default_chunk_type cfg.default_chunk_name_fmt code cfg.max_chunk_lines
  else
    top_level_nodes.flatMap (fun node =>
      let s := node.startRow + 1
      let e := node.endRow + 1
      let whole : Chunk :=
        { text := joinNL (sliceLines lines (s - 1) e),
          type := node.type,
          name := getNodeName cfg.default_node_name node,
          start_line := s, end_line := e }
      if cfg.max_chunk_lines < e - s then
        let subs := getSubChunksLoop (cfg.sub_chunk_types lang) cfg.default_node_name lines
          node.children []
        if subs.isEmpty then [whole] else subs
      else [whole])

/-! ## Python `ast` trees

The embedding keeps the attributes `_parse_python_with_ast` and
`_chunk_python_with_ast` read: the statement class (`ClassDef`,
`FunctionDef` / `AsyncFunctionDef`, or anything else), `name`, `lineno`,
`end_lineno` (0 models a falsy/absent `end_lineno`), the statement body, and
for expressions the shapes `Name`, `Attribute`, `Call` and a catch-all.  A
module is its top-level statement list (`tree.body`). -/

mutual

inductive PyStmt where
  | functionDef (isAsync : Bool) (name : String) (lineno endLineno : Nat) (body : List PyStmt)
  | classDef (name : String) (lineno endLineno : Nat) (body : List PyStmt)
  | exprStmt (lineno endLineno : Nat) (e : PyExpr)
  | otherStmt (lineno endLineno : Nat)

inductive PyExpr where
  | nameExpr (id : String) (lineno : Nat)
  | attributeExpr (value : PyExpr) (attr : String) (lineno : Nat)
  | callExpr (func : PyExpr) (args : List PyExpr) (lineno : Nat)
  | otherExpr (lineno : Nat)

end

/-- `node.end_lineno if hasattr(node, 'end_lineno') and node.end_lineno else
start_line + 1` (0 is the falsy value). -/
def pyEndLine (lineno endLineno : Nat) : Nat :=
  if endLineno = 0 then lineno + 1 else endLineno

/-- `'\n'.join(lines[start-1:end]) if end > start else lines[start-1]`, the
chunk-text computation of `_chunk_python_with_ast` (an out-of-range single
index, impossible for a real parse, is read as `""`). -/
def pyChunkText (lines : List String) (s e : Nat) : String :=
  if s < e then joinNL (sliceLines lines (s - 1) e) else lines.getD (s - 1) ""

/-- The method names a class body contributes
(`[child.name for child in node.body if isinstance(child, (FunctionDef,
AsyncFunctionDef))]`). -/
def pyMethodNames (body : List PyStmt) : List String :=
  body.filterMap (fun c =>
    match c with
    | .functionDef _ n _ _ _ => some n
    | _ => none)

/-- The definitions of `_parse_python_with_ast`: only top-level statements are
processed; a class definition collects its direct method names, a top-level
function becomes a function definition, and nothing else contributes. -/
def pyAstDefs (body : List PyStmt) : List Definition :=
  body.foldl
    (fun ds st =>
      match st with
      | .classDef name line _ cbody =>
          ds ++ [{ type := "class", name := name, line := line,
                   methods := pyMethodNames cbody }]
      | .functionDef _ name line _ _ =>
          ds ++ [{ type := "function", name := name, line := line }]
      | _ => ds)
    []

mutual

/-- The references collected by the `ast.walk` loop of
`_parse_python_with_ast`: every `Call` node whose `func` is a bare `Name`
yields a `function_call` reference; a `Call` with any other callee shape
(e.g. an `Attribute` for a dotted call) yields nothing.  `ast.walk` enumerates
every descendant node (breadth-first); since each `Call` node contributes
independently of the enumeration order, the embedding collects by structural
recursion, and all claims below are insensitive to the collection order. -/
def pyStmtRefs : PyStmt → List Reference
  | .functionDef _ _ _ _ body => pyStmtListRefs body
  | .classDef _ _ _ body => pyStmtListRefs body
  | .exprStmt _ _ e => pyExprRefs e
  | .otherStmt _ _ => []

def pyStmtListRefs : List PyStmt → List Reference
  | [] => []
  | s :: ss => pyStmtRefs s ++ pyStmtListRefs ss

def pyExprRefs : PyExpr → List Reference
  | .nameExpr _ _ => []
  | .attributeExpr v _ _ => pyExprRefs v
  | .callExpr f args line =>
      (match f with
       | .nameExpr id _ => [{ type := "function_call", name := id, line := line }]
       | _ => []) ++ (pyExprRefs f ++ pyExprListRefs args)
  | .otherExpr _ => []

def pyExprListRefs : List PyExpr → List Reference
  | [] => []
  | e :: es => pyExprRefs e ++ pyExprListRefs es

end

mutual

/-- All `Call` nodes of a subtree, in the same structural order used by
`pyStmtRefs`; the reference list is characterised below as a `filterMap` over
this list. -/
def pyStmtCalls : PyStmt → List PyExpr
  | .functionDef _ _ _ _ body => pyStmtListCalls body
  | .classDef _ _ _ body => pyStmtListCalls body
  | .exprStmt _ _ e => pyExprCalls e
  | .otherStmt _ _ => []

def pyStmtListCalls : List PyStmt → List PyExpr
  | [] => []
  | s :: ss => pyStmtCalls s ++ pyStmtListCalls ss

def pyExprCalls : PyExpr → List PyExpr
  | .nameExpr _ _ => []
  | .attributeExpr v _ _ => pyExprCalls v
  | .callExpr f args line =>
      PyExpr.callExpr f args line :: (pyExprCalls f ++ pyExprListCalls args)
  | .otherExpr _ => []

def pyExprListCalls : List PyExpr → List PyExpr
  | [] => []
  | e :: es => pyExprCalls e ++ pyExprListCalls es

end

/-- The reference a single `Call` node contributes on the Python-AST path:
`some` only for a bare-`Name` callee, whose full name is kept. -/
def pyRefOfCall : PyExpr → Option Reference
  | .callExpr (.nameExpr id _) _ line => some { type := "function_call", name := id, line := line }
  | _ => none

/-- `CodeParser._parse_python_with_ast` on a successfully parsed module:
definitions from the top-level statements, references from the tree walk.
(On `SyntaxError` the source falls back to `_fallback_parse`, a path the
claims do not touch.) -/
def parse_python_with_ast (body : List PyStmt) : List Definition × List Reference :=
  (pyAstDefs body, pyStmtListRefs body)

/-- The per-statement chunks of `_chunk_python_with_ast`: a top-level function
yields one chunk; a class yields either its direct-method chunks (when the
class is oversized and has at least one method) or a single class chunk; any
other statement yields nothing. -/
def astChunksOfStmt (max_chunk_lines : Nat) (lines : List String) : PyStmt → List Chunk
  | .functionDef isAsync name lineno endLineno _ =>
      [{ text := pyChunkText lines lineno (pyEndLine lineno endLineno),
         type := if isAsync then "async_function" else "function",
         name := name,
         start_line := lineno,
         end_line := pyEndLine lineno endLineno }]
  | .classDef name lineno endLineno body =>
      let e := pyEndLine lineno endLineno
      let classChunk : Chunk :=
        { text := pyChunkText lines lineno e, type := "class", name := name,
          start_line := lineno, end_line := e }
      if max_chunk_lines < e - lineno then
        let subs := body.flatMap (fun c =>
          match c with
          | .functionDef isAsync mname mline mend _ =>
              [{ text := pyChunkText lines mline (pyEndLine mline mend),
                 type := if isAsync then "async_function" else "method",
                 name := mname,
                 start_line := mline,
                 end_line := pyEndLine mline mend }]
          | _ => [])
        if subs.isEmpty then [classChunk] else subs
      else [classChunk]
  | _ => []

/-- `CodeParser._chunk_python_with_ast` on a successfully parsed module:
collect per-statement chunks in body order, sort them by `start_line`
(Python's stable `list.sort`), and fall back to size chunking when no chunk
was produced.  (`SyntaxError` and any other exception also fall back to
`_chunk_by_size`; those runs are exactly the size path.) -/
def chunk_python_with_ast (cfg : ParserCfg) (code : String) (body : List PyStmt) : List Chunk :=
  let lines := splitLines code
  let chunks := body.flatMap (astChunksOfStmt cfg.max_chunk_lines lines)
  let sorted := pySort (fun y x : Chunk => decide (y.start_line ≤ x.start_line)) chunks
  if sorted.isEmpty then
    chunk_by_size cfg.default_chunk_type cfg.default_chunk_name_fmt code cfg.max_chunk_lines
  else sorted

/-! ## Tree-sitter extraction (`_parse_java`, `_parse_python`,
`_parse_javascript`)

Each extractor is the same pre-order traversal (`traverse(node)` processes the
node, then recurses into `node.children` in order) around a per-language,
per-node step that appends to the accumulated `(definitions, references)`
lists.  The traversal engine is shared; each language contributes its step. -/

mutual

def tsTraverse (step : List Definition × List Reference → TSNode → List Definition × List Reference) :
    TSNode → List Definition × List Reference → List Definition × List Reference
  | .mk t s e tx fs cs, acc =>
    tsTraverseList step cs (step acc (.mk t s e tx fs cs))
termination_by n _ => 2 * tsSize n
decreasing_by
  rw [tsSize]
  omega

def tsTraverseList (step : List Definition × List Reference → TSNode → List Definition × List Reference) :
    List TSNode → List Definition × List Reference → List Definition × List Reference
  | [], acc => acc
  | c :: cs, acc => tsTraverseList step cs (tsTraverse step c acc)
termination_by l _ => 2 * tsSizeList l + 1
decreasing_by
  · simp only [tsSizeList]
    have := tsSize_pos c
    omega
  · simp only [tsSizeList]
    have := tsSize_pos c
    omega

end

/-- `CodeParser._get_node_text` composed with the falsy test `if name:`: a
missing node (`None`) and an empty stripped text behave identically, so the
embedding reads both as `""`. -/
def textOrEmpty (o : Option TSNode) : String :=
  match o with
  | none => ""
  | some n => pyStrip n.text

/-- The method names `_parse_java` collects for a class: the first
`class_body` child is scanned, and every `method_declaration` child of it with
a non-falsy name contributes. -/
def javaClassMethods (node : TSNode) : List String :=
  match node.children.find? (fun c => c.type = "class_body") with
  | some cb =>
    cb.children.filterMap (fun c =>
      if c.type = "method_declaration" then
        let m := textOrEmpty (childByFieldName c "name")
        if m ≠ "" then some m else none
      else none)
  | none => []

/-- The per-node step of `_parse_java`.  (`text[0].isupper()` is read with
Lean's ASCII `Char.isUpper`; the claims below never depend on non-ASCII
identifiers.) -/
def javaStep (acc : List Definition × List Reference) (node : TSNode) :
    List Definition × List Reference :=
  if node.type = "class_declaration" then
    let name := textOrEmpty (childByFieldName node "name")
    if name ≠ "" then
      (acc.1 ++ [{ type := "class", name := name, line := node.startRow + 1,
                   methods := javaClassMethods node }], acc.2)
    else acc
  else if node.type = "method_declaration" then
    let name := textOrEmpty (childByFieldName node "name")
    if name ≠ "" ∧ name ∉ (acc.1.filter (fun d => d.type = "method")).map (fun d => d.name) then
      (acc.1 ++ [{ type := "method", name := name, line := node.startRow + 1 }], acc.2)
    else acc
  else if node.type = "method_invocation" then
    let name := textOrEmpty (childByFieldName node "name")
    if name ≠ "" then
      (acc.1, acc.2 ++ [{ type := "method_call", name := name, line := node.startRow + 1 }])
    else acc
  else if node.type = "type_identifier" then
    let text := pyStrip node.text
    if text ≠ "" ∧ (text.data.headD 'a').isUpper then
      (acc.1, acc.2 ++ [{ type := "class_reference", name := text, line := node.startRow + 1 }])
    else acc
  else acc

/-- `CodeParser._parse_java` (the traversal starts at `tree.root_node`, which
is the node passed here). -/
def parse_java (tree : TSNode) : List Definition × List Reference :=
  tsTraverse javaStep tree ([], [])

/-- The per-node step of `_parse_python` (the Tree-sitter Python extractor). -/
def pythonTsStep (acc : List Definition × List Reference) (node : TSNode) :
    List Definition × List Reference :=
  if node.type = "class_definition" then
    let name := textOrEmpty (childByFieldName node "name")
    if name ≠ "" then
      (acc.1 ++ [{ type := "class", name := name, line := node.startRow + 1 }], acc.2)
    else acc
  else if node.type = "function_definition" then
    let name := textOrEmpty (childByFieldName node "name")
    if name ≠ "" then
      (acc.1 ++ [{ type := "function", name := name, line := node.startRow + 1 }], acc.2)
    else acc
  else if node.type = "call" then
    let name := textOrEmpty (childByFieldName node "function")
    if name ≠ "" then
      (acc.1, acc.2 ++ [{ type := "function_call", name := lastDotSegment name,
                          line := node.startRow + 1 }])
    else acc
  else acc

/-- `CodeParser._parse_python`. -/
def parse_python_treesitter (tree : TSNode) : List Definition × List Reference :=
  tsTraverse pythonTsStep tree ([], [])

/-- The per-node step of `_parse_javascript`. -/
def javascriptStep (acc : List Definition × List Reference) (node : TSNode) :
    List Definition × List Reference :=
  if node.type = "class_declaration" then
    let name := textOrEmpty (childByFieldName node "name")
    if name ≠ "" then
      (acc.1 ++ [{ type := "class", name := name, line := node.startRow + 1 }], acc.2)
    else acc
  else if node.type = "function_declaration" then
    let name := textOrEmpty (childByFieldName node "name")
    if name ≠ "" then
      (acc.1 ++ [{ type := "function", name := name, line := node.startRow + 1 }], acc.2)
    else acc
  else if node.type = "method_definition" then
    let name := textOrEmpty (childByFieldName node "name")
    if name ≠ "" then
      (acc.1 ++ [{ type := "method", name := name, line := node.startRow + 1 }], acc.2)
    else acc
  else if node.type = "call_expression" then
    let name := textOrEmpty (childByFieldName node "function")
    if name ≠ "" then
      (acc.1, acc.2 ++ [{ type := "function_call", name := lastDotSegment name,
                          line := node.startRow + 1 }])
    else acc
  else acc

/-- `CodeParser._parse_javascript`. -/
def parse_javascript (tree : TSNode) : List Definition × List Reference :=
  tsTraverse javascriptStep tree ([], [])

/-- Occurrence of a node in a tree: reflexive-transitive closure of the child
relation (exactly the nodes the recursive `traverse` visits). -/
inductive TSOccurs : TSNode → TSNode → Prop
  | refl (t : TSNode) : TSOccurs t t
  | child (n c t : TSNode) : c ∈ t.children → TSOccurs n c → TSOccurs n t

mutual

theorem tsTraverse_stable
    (step : List Definition × List Reference → TSNode → List Definition × List Reference)
    (P : List Definition × List Reference → Prop)
    (hstep : ∀ acc n, P acc → P (step acc n)) :
    ∀ (t : TSNode) (acc : List Definition × List Reference),
      P acc → P (tsTraverse step t acc) := by
  intro t acc hacc
  match t with
  | .mk ty s e tx fs cs =>
    rw [tsTraverse]
    exact tsTraverseList_stable step P hstep cs _ (hstep acc _ hacc)
termination_by t _ _ => 2 * tsSize t
decreasing_by
  rw [tsSize]
  omega

theorem tsTraverseList_stable
    (step : List Definition × List Reference → TSNode → List Definition × List Reference)
    (P : List Definition × List Reference → Prop)
    (hstep : ∀ acc n, P acc → P (step acc n)) :
    ∀ (l : List TSNode) (acc : List Definition × List Reference),
      P acc → P (tsTraverseList step l acc) := by
  intro l acc hacc
  match l with
  | [] => rw [tsTraverseList]; exact hacc
  | c :: cs =>
    rw [tsTraverseList]
    exact tsTraverseList_stable step P hstep cs _ (tsTraverse_stable step P hstep c acc hacc)
termination_by l _ _ => 2 * tsSizeList l + 1
decreasing_by
  · simp only [tsSizeList]
    have := tsSize_pos c
    omega
  · simp only [tsSizeList]
    have := tsSize_pos c
    omega

end

theorem tsTraverseList_of_mem
    (step : List Definition × List Reference → TSNode → List Definition × List Reference)
    (P : List Definition × List Reference → Prop)
    (hstep : ∀ acc n, P acc → P (step acc n)) (c : TSNode) :
    ∀ l : List TSNode, c ∈ l →
      (∀ acc, P (tsTraverse step c acc)) →
      ∀ acc, P (tsTraverseList step l acc) := by
  intro l
  induction l with
  | nil => intro hc; cases hc
  | cons d ds ih =>
    intro hc hc' acc
    rw [tsTraverseList]
    rcases List.mem_cons.mp hc with h | h
    · subst h
      exact tsTraverseList_stable step P hstep ds _ (hc' acc)
    · exact ih h hc' _

theorem tsSize_le_of_mem (c : TSNode) :
    ∀ l : List TSNode, c ∈ l → tsSize c ≤ tsSizeList l := by
  intro l
  induction l with
  | nil => intro hc; cases hc
  | cons d ds ih =>
    intro hc
    rcases List.mem_cons.mp hc with h | h
    · subst h
      simp only [tsSizeList]
      omega
    · have := ih h
      simp only [tsSizeList]
      omega

theorem tsTraverse_occurs_aux
    (step : List Definition × List Reference → TSNode → List Definition × List Reference)
    (P : List Definition × List Reference → Prop)
    (hstep : ∀ acc n, P acc → P (step acc n)) :
    ∀ (k : Nat) (t n : TSNode), tsSize t ≤ k → TSOccurs n t →
      (∀ acc, P (step acc n)) →
      ∀ acc, P (tsTraverse step t acc) := by
  intro k
  induction k with
  | zero =>
    intro t n hle _ _ _
    have := tsSize_pos t
    omega
  | succ k ih =>
    intro t n hle hocc hest acc
    cases hocc with
    | refl =>
      match t with
      | .mk ty s e tx fs cs =>
        rw [tsTraverse]
        exact tsTraverseList_stable step P hstep cs _ (hest acc)
    | child c hsub hc =>
      rename_i hsub
      have hsize : tsSize c ≤ k := by
        have h1 := tsSize_le_of_mem c t.children hc
        have h2 := tsSizeList_children_lt t
        omega
      have hc' : ∀ acc, P (tsTraverse step c acc) := ih c n hsize hsub hest
      match t, hc with
      | .mk ty s e tx fs cs, hc =>
        rw [tsTraverse]
        exact tsTraverseList_of_mem step P hstep c cs
          (by simpa [TSNode.children] using hc) hc' _

theorem tsTraverse_occurs
    (step : List Definition × List Reference → TSNode → List Definition × List Reference)
    (P : List Definition × List Reference → Prop)
    (hstep : ∀ acc n, P acc → P (step acc n))
    (n t : TSNode) (hocc : TSOccurs n t)
    (hest : ∀ acc, P (step acc n)) :
    ∀ acc, P (tsTraverse step t acc) :=
  tsTraverse_occurs_aux step P hstep (tsSize t) t n (Nat.le_refl _) hocc hest

/-! ## The repository indexer (`indexer.py`)

`index_codebase` iterates the collected file list; the whole per-file body
(`getsize`, read, `parse_file`, `chunk_code`, the stores) sits in one
`try/except` whose handler logs and `continue`s.  A file's processing is
therefore an input of the embedding: either `Except.ok` with everything the
loop body would have computed for it (size, decoded code, parse result,
chunks), or `Except.error` standing for an exception raised anywhere in the
body.  Inside the `ok` case the loop still skips files that are too large or
whitespace-only. -/

structure ParseResult where
  definitions : List Definition
  references : List Reference
  language : Option String
deriving Repr, DecidableEq

structure FileData where
  size : Nat
  code : String
  parsed : ParseResult
  chunks : List Chunk
deriving Repr, DecidableEq

structure FileJob where
  path : String
  relPath : String
  result : Except String FileData
deriving Repr

structure RepoEntry where
  definitions : List Definition
  references : List Reference
  language : Option String
  file_path : String
  chunks : List Chunk
deriving Repr, DecidableEq

structure IndexState where
  repo_map : List (String × RepoEntry)
  symbol_to_file : List (String × List String)
deriving Repr, DecidableEq

/-- Python dict assignment `self.repo_map[rel_path] = ...`: replace in place
if the key exists, else append. -/
def insertRepo (m : List (String × RepoEntry)) (k : String) (v : RepoEntry) :
    List (String × RepoEntry) :=
  if m.any (fun p => p.1 = k) then m.map (fun p => if p.1 = k then (k, v) else p)
  else m ++ [(k, v)]

/-- The symbol-table update of `index_codebase`: create the entry list on
first sight of a name, then append the file's relative path. -/
def addSymbol (t : List (String × List String)) (n p : String) :
    List (String × List String) :=
  if t.any (fun q => q.1 = n) then t.map (fun q => if q.1 = n then (q.1, q.2 ++ [p]) else q)
  else t ++ [(n, [p])]

/-- One iteration of the `for file_path in files` loop of
`RepositoryIndexer.index_codebase`. -/
def indexStep (max_file_size : Nat) (s : IndexState) (job : FileJob) : IndexState :=
  match job.result with
  | .error _ => s
  | .ok d =>
    if max_file_size < d.size then s
    else if pyStrip d.code = "" then s
    else
      let entry : RepoEntry :=
        { definitions := d.parsed.definitions, references := d.parsed.references,
          language := d.parsed.language, file_path := job.path, chunks := d.chunks }
      let s1 : IndexState := { s with repo_map := insertRepo s.repo_map job.relPath entry }
      { s1 with
        symbol_to_file := d.parsed.definitions.foldl
          (fun t dfn => if dfn.name ≠ "" then addSymbol t dfn.name job.relPath else t)
          s1.symbol_to_file }

/-- `RepositoryIndexer.index_codebase` over the collected (sorted, filtered)
file list. -/
def index_codebase (max_file_size : Nat) (jobs : List FileJob) : IndexState :=
  jobs.foldl (indexStep max_file_size) ⟨[], []⟩

theorem indexStep_error (mfs : Nat) (s : IndexState) (job : FileJob) (msg : String)
    (h : job.result = Except.error msg) : indexStep mfs s job = s := by
  unfold indexStep
  rw [h]

theorem insertRepo_hasKey_self (m : List (String × RepoEntry)) (k : String) (v : RepoEntry) :
    ∃ p ∈ insertRepo m k v, p.1 = k := by
  unfold insertRepo
  split
  · rename_i h
    rw [List.any_eq_true] at h
    obtain ⟨p, hp, hpk⟩ := h
    refine ⟨(k, v), ?_, rfl⟩
    rw [List.mem_map]
    refine ⟨p, hp, ?_⟩
    rw [if_pos (by simpa using hpk)]
  · exact ⟨(k, v), by simp, rfl⟩

theorem insertRepo_hasKey_mono (m : List (String × RepoEntry)) (k k' : String) (v : RepoEntry)
    (h : ∃ p ∈ m, p.1 = k') : ∃ p ∈ insertRepo m k v, p.1 = k' := by
  obtain ⟨p, hp, hpk⟩ := h
  unfold insertRepo
  split
  · by_cases hk : p.1 = k
    · refine ⟨(k, v), ?_, by rw [← hpk, hk]⟩
      rw [List.mem_map]
      exact ⟨p, hp, by rw [if_pos hk]⟩
    · refine ⟨p, ?_, hpk⟩
      rw [List.mem_map]
      exact ⟨p, hp, by rw [if_neg hk]⟩
  · exact ⟨p, by simp [hp], hpk⟩

theorem indexStep_hasKey_mono (mfs : Nat) (s : IndexState) (job : FileJob) (k : String)
    (h : ∃ p ∈ s.repo_map, p.1 = k) : ∃ p ∈ (indexStep mfs s job).repo_map, p.1 = k := by
  unfold indexStep
  split
  · exact h
  · split
    · exact h
    · split
      · exact h
      · exact insertRepo_hasKey_mono _ _ _ _ h

theorem indexStep_retained_hasKey (mfs : Nat) (s : IndexState) (job : FileJob) (d : FileData)
    (hok : job.result = Except.ok d) (hsize : d.size ≤ mfs) (hne : pyStrip d.code ≠ "") :
    ∃ p ∈ (indexStep mfs s job).repo_map, p.1 = job.relPath := by
  unfold indexStep
  simp only [hok]
  rw [if_neg (by omega), if_neg hne]
  exact insertRepo_hasKey_self _ _ _

/-- C9: a file whose processing raises is skipped without aborting the run:
the repository map and symbol table over a job list containing one failing job
are exactly those of the run without that job, and every other retained file
(readable, within the size bound, not whitespace-only) ends up with a
repository-map entry. -/
theorem C9_index_codebase_skips_failures (mfs : Nat) (pre post : List FileJob)
    (bad : FileJob) (msg : String) (hbad : bad.result = Except.error msg) :
    index_codebase mfs (pre ++ bad :: post) = index_codebase mfs (pre ++ post) ∧
    (∀ job ∈ pre ++ post, ∀ d, job.result = Except.ok d → d.size ≤ mfs →
       pyStrip d.code ≠ "" →
       ∃ p ∈ (index_codebase mfs (pre ++ post)).repo_map, p.1 = job.relPath) := by
  constructor
  · unfold index_codebase
    rw [List.foldl_append, List.foldl_append, List.foldl_cons,
      indexStep_error mfs _ bad msg hbad]
  · have main : ∀ (jobs : List FileJob) (s : IndexState), ∀ job ∈ jobs, ∀ d,
        job.result = Except.ok d → d.size ≤ mfs → pyStrip d.code ≠ "" →
        ∃ p ∈ (jobs.foldl (indexStep mfs) s).repo_map, p.1 = job.relPath := by
      intro jobs
      induction jobs with
      | nil => intro s job hj; cases hj
      | cons j js ih =>
        intro s job hj d hok hsize hne
        rw [List.foldl_cons]
        rcases List.mem_cons.mp hj with h | h
        · subst h
          exact foldl_preserves
            (fun s : IndexState => ∃ p ∈ s.repo_map, p.1 = job.relPath)
            (indexStep mfs) (fun s j h => indexStep_hasKey_mono mfs s j _ h) js _
            (indexStep_retained_hasKey mfs s job d hok hsize hne)
        · exact ih _ job h d hok hsize hne
    intro job hj d hok hsize hne
    exact main (pre ++ post) ⟨[], []⟩ job hj d hok hsize hne

/-- Witness jobs for C9: two retained files around one failing file. -/
def jobOkA : FileJob :=
  { path := "/repo/A.py", relPath := "A.py",
    result := Except.ok
      { size := 20, code := "def foo():\n    pass",
        parsed := { definitions := [{ type := "function", name := "foo", line := 1 }],
                    references := [], language := some "python" },
        chunks := [] } }

def jobBad : FileJob :=
  { path := "/repo/broken.py", relPath := "broken.py",
    result := Except.error "UnicodeDecodeError" }

def jobOkB : FileJob :=
  { path := "/repo/B.py", relPath := "B.py",
    result := Except.ok
      { size := 10, code := "foo()",
        parsed := { definitions := [],
                    references := [{ type := "function_call", name := "foo", line := 1 }],
                    language := some "python" },
        chunks := [] } }

/-- Witness for C9 at the concrete three-job run. -/
theorem C9_index_codebase_skips_failures_witness :
    jobBad.result = Except.error "UnicodeDecodeError" ∧
    (index_codebase 1000 ([jobOkA] ++ jobBad :: [jobOkB]) =
       index_codebase 1000 ([jobOkA] ++ [jobOkB]) ∧
     (∀ job ∈ [jobOkA] ++ [jobOkB], ∀ d, job.result = Except.ok d → d.size ≤ 1000 →
        pyStrip d.code ≠ "" →
        ∃ p ∈ (index_codebase 1000 ([jobOkA] ++ [jobOkB])).repo_map, p.1 = job.relPath)) :=
  ⟨rfl, C9_index_codebase_skips_failures 1000 [jobOkA] [jobOkB] jobBad
    "UnicodeDecodeError" rfl⟩

/-! ## Claim C7: nested methods and top-level definitions -/

/-- The definitions one top-level statement contributes on the Python-AST
path. -/
def pyDefsOfStmt : PyStmt → List Definition
  | .classDef name line _ cbody =>
      [{ type := "class", name := name, line := line, methods := pyMethodNames cbody }]
  | .functionDef _ name line _ _ =>
      [{ type := "function", name := name, line := line }]
  | _ => []

theorem pyAstDefs_eq_flatMap :
    ∀ (body : List PyStmt) (init : List Definition),
      body.foldl
        (fun ds st =>
          match st with
          | .classDef name line _ cbody =>
              ds ++ [{ type := "class", name := name, line := line,
                       methods := pyMethodNames cbody }]
          | .functionDef _ name line _ _ =>
              ds ++ [{ type := "function", name := name, line := line }]
          | _ => ds)
        init = init ++ body.flatMap pyDefsOfStmt := by
  intro body
  induction body with
  | nil => intro init; simp
  | cons st rest ih =>
    intro init
    rw [List.foldl_cons, List.flatMap_cons]
    cases st with
    | functionDef isA nm l e fb =>
      rw [ih]
      simp [pyDefsOfStmt]
    | classDef nm l e cb =>
      rw [ih]
      simp [pyDefsOfStmt]
    | exprStmt l e ex =>
      rw [ih]
      simp [pyDefsOfStmt]
    | otherStmt l e =>
      rw [ih]
      simp [pyDefsOfStmt]

theorem javaStep_defs_mono (acc : List Definition × List Reference) (n : TSNode)
    (d : Definition) (hd : d ∈ acc.1) : d ∈ (javaStep acc n).1 := by
  simp only [javaStep]
  split_ifs <;> simp_all

/-- C7 counterexample: a Java class `A` with one method `m`.  `_parse_java`
collects `m` into the class definition's `methods` list *and also* emits `m`
as an independent top-level `method` definition, contradicting the claim that
nested methods are not emitted independently. -/
def javaIdentA : TSNode := .mk "identifier" 0 0 "A" [] []

def javaIdentM : TSNode := .mk "identifier" 2 2 "m" [] []

def javaMethodNodeEx : TSNode :=
  .mk "method_declaration" 2 3 "void m() { }" [("name", javaIdentM)] [javaIdentM]

def javaClassBodyEx : TSNode :=
  .mk "class_body" 1 4 "{ void m() { } }" [] [javaMethodNodeEx]

def javaClassNodeEx : TSNode :=
  .mk "class_declaration" 0 4 "class A { void m() { } }" [("name", javaIdentA)]
    [javaIdentA, javaClassBodyEx]

def javaRootEx : TSNode := .mk "program" 0 5 "class A { void m() { } }" [] [javaClassNodeEx]

unseal tsTraverse tsTraverseList in
theorem C7_counterexample :
    (parse_java javaRootEx).1 =
      [{ type := "class", name := "A", line := 1, methods := ["m"] },
       { type := "method", name := "m", line := 3 }] ∧
    (∃ d ∈ (parse_java javaRootEx).1, d.type = "method" ∧ d.name = "m") ∧
    (∃ d ∈ (parse_java javaRootEx).1, d.type = "class" ∧ "m" ∈ d.methods) := by
  refine ⟨by decide, by decide, by decide⟩

/-- C7 as amended: on the Python-AST path, nested methods are only collected
into the enclosing class Definition's `methods` list — every emitted
Definition comes from a top-level statement (a top-level function or a class
carrying its direct methods' names).  On the Java path, method names inside a
class body are collected into the class Definition's `methods` list but each
`method_declaration` node is *additionally* emitted as an independent `method`
Definition (de-duplicated by name among method Definitions). -/
theorem C7_method_extraction_amended :
    (∀ body : List PyStmt, ∀ d ∈ (parse_python_with_ast body).1,
       ∃ st ∈ body, d ∈ pyDefsOfStmt st) ∧
    (∀ t node : TSNode, TSOccurs node t → node.type = "class_declaration" →
       textOrEmpty (childByFieldName node "name") ≠ "" →
       ∃ d ∈ (parse_java t).1, d.type = "class" ∧
         d.name = textOrEmpty (childByFieldName node "name") ∧
         d.methods = javaClassMethods node) ∧
    (∀ t node : TSNode, TSOccurs node t → node.type = "method_declaration" →
       textOrEmpty (childByFieldName node "name") ≠ "" →
       ∃ d ∈ (parse_java t).1, d.type = "method" ∧
         d.name = textOrEmpty (childByFieldName node "name")) := by
  refine ⟨?_, ?_, ?_⟩
  · intro body d hd
    unfold parse_python_with_ast pyAstDefs at hd
    rw [pyAstDefs_eq_flatMap body []] at hd
    simp only [List.nil_append] at hd
    obtain ⟨st, hst, hd'⟩ := List.mem_flatMap.mp hd
    exact ⟨st, hst, hd'⟩
  · intro t node hocc htype hname
    refine tsTraverse_occurs javaStep
      (fun acc => ∃ d ∈ acc.1, d.type = "class" ∧
        d.name = textOrEmpty (childByFieldName node "name") ∧
        d.methods = javaClassMethods node) ?_ node t hocc ?_ ([], [])
    · rintro acc n ⟨d, hd, hp⟩
      exact ⟨d, javaStep_defs_mono acc n d hd, hp⟩
    · intro acc
      simp only [javaStep]
      rw [if_pos htype, if_pos hname]
      refine ⟨{ type := "class", name := textOrEmpty (childByFieldName node "name"),
                line := node.startRow + 1, methods := javaClassMethods node },
              ?_, rfl, rfl, rfl⟩
      simp
  · intro t node hocc htype hname
    refine tsTraverse_occurs javaStep
      (fun acc => ∃ d ∈ acc.1, d.type = "method" ∧
        d.name = textOrEmpty (childByFieldName node "name")) ?_ node t hocc ?_ ([], [])
    · rintro acc n ⟨d, hd, hp⟩
      exact ⟨d, javaStep_defs_mono acc n d hd, hp⟩
    · intro acc
      simp only [javaStep]
      rw [if_neg (by rw [htype]; decide), if_pos htype]
      by_cases hin : textOrEmpty (childByFieldName node "name") ∈
          (acc.1.filter (fun d => d.type = "method")).map (fun d => d.name)
      · rw [if_neg (by intro h; exact h.2 hin)]
        simp only [List.mem_map, List.mem_filter] at hin
        obtain ⟨d, ⟨hd, hdt⟩, hdn⟩ := hin
        exact ⟨d, hd, by simpa using hdt, hdn⟩
      · rw [if_pos ⟨hname, hin⟩]
        refine ⟨{ type := "method", name := textOrEmpty (childByFieldName node "name"),
                  line := node.startRow + 1, methods := [] }, ?_, rfl, rfl⟩
        simp

/-- Witness for the amended C7 at the concrete Java example and a one-class
Python module. -/
theorem C7_method_extraction_amended_witness :
    (TSOccurs javaMethodNodeEx javaRootEx ∧
     javaMethodNodeEx.type = "method_declaration" ∧
     textOrEmpty (childByFieldName javaMethodNodeEx "name") ≠ "") ∧
    (∃ d ∈ (parse_java javaRootEx).1, d.type = "method" ∧
       d.name = textOrEmpty (childByFieldName javaMethodNodeEx "name")) := by
  have hocc : TSOccurs javaMethodNodeEx javaRootEx :=
    TSOccurs.child javaMethodNodeEx javaClassNodeEx javaRootEx (by simp [javaRootEx, TSNode.children])
      (TSOccurs.child javaMethodNodeEx javaClassBodyEx javaClassNodeEx
        (by simp [javaClassNodeEx, TSNode.children])
        (TSOccurs.child javaMethodNodeEx javaMethodNodeEx javaClassBodyEx
          (by simp [javaClassBodyEx, TSNode.children])
          (TSOccurs.refl javaMethodNodeEx)))
  exact ⟨⟨hocc, rfl, by decide⟩,
    C7_method_extraction_amended.2.2 javaRootEx javaMethodNodeEx hocc rfl (by decide)⟩

/-! ## Claim C8: reference names from call nodes -/

mutual

def pyStmtSize : PyStmt → Nat
  | .functionDef _ _ _ _ body => 1 + pyStmtListSize body
  | .classDef _ _ _ body => 1 + pyStmtListSize body
  | .exprStmt _ _ e => 1 + pyExprSize e
  | .otherStmt _ _ => 1

def pyStmtListSize : List PyStmt → Nat
  | [] => 0
  | s :: ss => pyStmtSize s + pyStmtListSize ss

def pyExprSize : PyExpr → Nat
  | .nameExpr _ _ => 1
  | .attributeExpr v _ _ => 1 + pyExprSize v
  | .callExpr f args _ => 1 + pyExprSize f + pyExprListSize args
  | .otherExpr _ => 1

def pyExprListSize : List PyExpr → Nat
  | [] => 0
  | e :: es => pyExprSize e + pyExprListSize es

end

theorem pyStmtSize_pos (s : PyStmt) : 1 ≤ pyStmtSize s := by
  cases s <;> simp only [pyStmtSize] <;> omega

theorem pyExprSize_pos (e : PyExpr) : 1 ≤ pyExprSize e := by
  cases e <;> simp only [pyExprSize] <;> omega

mutual

theorem pyStmtRefs_char : ∀ s : PyStmt,
    pyStmtRefs s = (pyStmtCalls s).filterMap pyRefOfCall
  | .functionDef isA nm l e body => by
    rw [pyStmtRefs, pyStmtCalls]
    exact pyStmtListRefs_char body
  | .classDef nm l e body => by
    rw [pyStmtRefs, pyStmtCalls]
    exact pyStmtListRefs_char body
  | .exprStmt l e ex => by
    rw [pyStmtRefs, pyStmtCalls]
    exact pyExprRefs_char ex
  | .otherStmt l e => by
    rw [pyStmtRefs, pyStmtCalls]
    rfl
termination_by s => 2 * pyStmtSize s
decreasing_by
  all_goals (rw [pyStmtSize]; omega)

theorem pyStmtListRefs_char : ∀ l : List PyStmt,
    pyStmtListRefs l = (pyStmtListCalls l).filterMap pyRefOfCall
  | [] => by rw [pyStmtListRefs, pyStmtListCalls]; rfl
  | s :: ss => by
    rw [pyStmtListRefs, pyStmtListCalls, List.filterMap_append,
      pyStmtRefs_char s, pyStmtListRefs_char ss]
termination_by l => 2 * pyStmtListSize l + 1
decreasing_by
  all_goals (rw [pyStmtListSize]; have := pyStmtSize_pos s; omega)

theorem pyExprRefs_char : ∀ e : PyExpr,
    pyExprRefs e = (pyExprCalls e).filterMap pyRefOfCall
  | .nameExpr id l => by rw [pyExprRefs, pyExprCalls]; rfl
  | .attributeExpr v a l => by
    rw [pyExprRefs, pyExprCalls]
    exact pyExprRefs_char v
  | .callExpr f args l => by
    cases f with
    | nameExpr id ln =>
      rw [pyExprRefs, pyExprCalls, List.filterMap_cons, List.filterMap_append,
        pyExprRefs_char (PyExpr.nameExpr id ln), pyExprListRefs_char args]
      rfl
    | attributeExpr v a ln =>
      rw [pyExprRefs, pyExprCalls, List.filterMap_cons, List.filterMap_append,
        pyExprRefs_char (PyExpr.attributeExpr v a ln), pyExprListRefs_char args]
      rfl
      simp
    | callExpr f2 a2 l2 =>
      rw [pyExprRefs, pyExprCalls, List.filterMap_cons, List.filterMap_append,
        pyExprRefs_char (PyExpr.callExpr f2 a2 l2), pyExprListRefs_char args]
      rfl
      simp
    | otherExpr ln =>
      rw [pyExprRefs, pyExprCalls, List.filterMap_cons, List.filterMap_append,
        pyExprRefs_char (PyExpr.otherExpr ln), pyExprListRefs_char args]
      rfl
      simp
  | .otherExpr l => by rw [pyExprRefs, pyExprCalls]; rfl
termination_by e => 2 * pyExprSize e
decreasing_by
  all_goals (simp only [pyExprSize]; omega)

theorem pyExprListRefs_char : ∀ l : List PyExpr,
    pyExprListRefs l = (pyExprListCalls l).filterMap pyRefOfCall
  | [] => by rw [pyExprListRefs, pyExprListCalls]; rfl
  | e :: es => by
    rw [pyExprListRefs, pyExprListCalls, List.filterMap_append,
      pyExprRefs_char e, pyExprListRefs_char es]
termination_by l => 2 * pyExprListSize l + 1
decreasing_by
  all_goals (rw [pyExprListSize]; have := pyExprSize_pos e; omega)

end

theorem pythonTsStep_refs_mono (acc : List Definition × List Reference) (n : TSNode)
    (r : Reference) (hr : r ∈ acc.2) : r ∈ (pythonTsStep acc n).2 := by
  simp only [pythonTsStep]
  split_ifs <;> simp_all

theorem javascriptStep_refs_mono (acc : List Definition × List Reference) (n : TSNode)
    (r : Reference) (hr : r ∈ acc.2) : r ∈ (javascriptStep acc n).2 := by
  simp only [javascriptStep]
  split_ifs <;> simp_all

/-- C8 counterexample: a Python module whose only statement is the dotted call
`a.b.foo()`, parsed on the Python-AST path.  The module contains exactly one
call node, but its callee is an `Attribute`, not a bare `Name`, so the walk of
`_parse_python_with_ast` emits *no* reference at all — in particular no
reference named `foo` — refuting the claim for this extraction path. -/
def pyDottedCall : PyExpr :=
  PyExpr.callExpr
    (PyExpr.attributeExpr (PyExpr.attributeExpr (PyExpr.nameExpr "a" 1) "b" 1) "foo" 1) [] 1

def pyModDotted : List PyStmt := [PyStmt.exprStmt 1 1 pyDottedCall]

theorem C8_counterexample :
    (pyStmtListCalls pyModDotted).length = 1 ∧
    (parse_python_with_ast pyModDotted).2 = [] := by
  constructor <;> rfl

/-- C8 as amended: on the Tree-sitter Python and JavaScript paths, every
call node whose `function` field has non-empty stripped text yields a
reference named by the *last dotted segment* of that text; on the Python-AST
path, the reference list is exactly the bare-`Name` calls (each kept whole),
so a dotted callee produces no reference at all. -/
theorem C8_reference_names_amended :
    (∀ t node : TSNode, TSOccurs node t → node.type = "call" →
       ∀ fn : TSNode, childByFieldName node "function" = some fn → pyStrip fn.text ≠ "" →
       ∃ r ∈ (parse_python_treesitter t).2, r.type = "function_call" ∧
         r.name = lastDotSegment (pyStrip fn.text) ∧ r.line = node.startRow + 1) ∧
    (∀ t node : TSNode, TSOccurs node t → node.type = "call_expression" →
       ∀ fn : TSNode, childByFieldName node "function" = some fn → pyStrip fn.text ≠ "" →
       ∃ r ∈ (parse_javascript t).2, r.type = "function_call" ∧
         r.name = lastDotSegment (pyStrip fn.text) ∧ r.line = node.startRow + 1) ∧
    (∀ body : List PyStmt,
       (parse_python_with_ast body).2 = (pyStmtListCalls body).filterMap pyRefOfCall) := by
  refine ⟨?_, ?_, ?_⟩
  · intro t node hocc htype fn hfn hname
    refine tsTraverse_occurs pythonTsStep
      (fun acc => ∃ r ∈ acc.2, r.type = "function_call" ∧
        r.name = lastDotSegment (pyStrip fn.text) ∧ r.line = node.startRow + 1)
      ?_ node t hocc ?_ ([], [])
    · rintro acc n ⟨r, hr, hp⟩
      exact ⟨r, pythonTsStep_refs_mono acc n r hr, hp⟩
    · intro acc
      simp only [pythonTsStep]
      rw [if_neg (by rw [htype]; decide), if_neg (by rw [htype]; decide), if_pos htype]
      have htext : textOrEmpty (childByFieldName node "function") = pyStrip fn.text := by
        rw [hfn]
        rfl
      rw [htext, if_pos hname]
      refine ⟨{ type := "function_call", name := lastDotSegment (pyStrip fn.text),
                line := node.startRow + 1 }, ?_, rfl, rfl, rfl⟩
      simp
  · intro t node hocc htype fn hfn hname
    refine tsTraverse_occurs javascriptStep
      (fun acc => ∃ r ∈ acc.2, r.type = "function_call" ∧
        r.name = lastDotSegment (pyStrip fn.text) ∧ r.line = node.startRow + 1)
      ?_ node t hocc ?_ ([], [])
    · rintro acc n ⟨r, hr, hp⟩
      exact ⟨r, javascriptStep_refs_mono acc n r hr, hp⟩
    · intro acc
      simp only [javascriptStep]
      rw [if_neg (by rw [htype]; decide), if_neg (by rw [htype]; decide),
        if_neg (by rw [htype]; decide), if_pos htype]
      have htext : textOrEmpty (childByFieldName node "function") = pyStrip fn.text := by
        rw [hfn]
        rfl
      rw [htext, if_pos hname]
      refine ⟨{ type := "function_call", name := lastDotSegment (pyStrip fn.text),
                line := node.startRow + 1 }, ?_, rfl, rfl, rfl⟩
      simp
  · intro body
    exact pyStmtListRefs_char body

/-- Witness for the amended C8: the dotted call `a.b.foo()` as a Tree-sitter
`call` node. -/
def tsFuncAttrEx : TSNode := .mk "attribute" 0 0 "a.b.foo" [] []

def tsCallNodeEx : TSNode :=
  .mk "call" 0 0 "a.b.foo()" [("function", tsFuncAttrEx)] [tsFuncAttrEx]

def tsPyModuleEx : TSNode := .mk "module" 0 0 "a.b.foo()" [] [tsCallNodeEx]

theorem C8_reference_names_amended_witness :
    (TSOccurs tsCallNodeEx tsPyModuleEx ∧ tsCallNodeEx.type = "call" ∧
     childByFieldName tsCallNodeEx "function" = some tsFuncAttrEx ∧
     pyStrip tsFuncAttrEx.text ≠ "") ∧
    (∃ r ∈ (parse_python_treesitter tsPyModuleEx).2, r.type = "function_call" ∧
       r.name = lastDotSegment (pyStrip tsFuncAttrEx.text) ∧
       r.line = tsCallNodeEx.startRow + 1) := by
  have hocc : TSOccurs tsCallNodeEx tsPyModuleEx :=
    TSOccurs.child tsCallNodeEx tsCallNodeEx tsPyModuleEx
      (by simp [tsPyModuleEx, TSNode.children]) (TSOccurs.refl tsCallNodeEx)
  exact ⟨⟨hocc, rfl, rfl, by decide⟩,
    C8_reference_names_amended.1 tsPyModuleEx tsCallNodeEx hocc rfl tsFuncAttrEx rfl (by decide)⟩

/-! ## Claim C6: chunk ordering and non-overlap -/

/-- Disjoint line ranges (symmetric). -/
def chunkDisj (a b : Chunk) : Prop :=
  a.end_line < b.start_line ∨ b.end_line < a.start_line

theorem chunkDisj_symm : ∀ {a b : Chunk}, chunkDisj a b → chunkDisj b a := by
  intro a b h
  rcases h with h | h
  · exact Or.inr h
  · exact Or.inl h

def stmtStart : PyStmt → Nat
  | .functionDef _ _ l _ _ => l
  | .classDef _ l _ _ => l
  | .exprStmt l _ _ => l
  | .otherStmt l _ => l

def stmtEnd : PyStmt → Nat
  | .functionDef _ _ l e _ => pyEndLine l e
  | .classDef _ l e _ => pyEndLine l e
  | .exprStmt l e _ => pyEndLine l e
  | .otherStmt l e => pyEndLine l e

def producesChunks : PyStmt → Bool
  | .functionDef _ _ _ _ _ => true
  | .classDef _ _ _ _ => true
  | _ => false

def methodRange : PyStmt → Option (Nat × Nat)
  | .functionDef _ _ l e _ => some (l, pyEndLine l e)
  | _ => none

/-- Direct methods of a class body appear in source order with disjoint
ranges. -/
def methodSep (a b : PyStmt) : Bool :=
  match methodRange a, methodRange b with
  | some ra, some rb => decide (ra.2 < rb.1)
  | _, _ => true

/-- A direct method's range is valid and contained in its class's range. -/
def methodWithin (l e : Nat) (c : PyStmt) : Bool :=
  match methodRange c with
  | some r => decide (l ≤ r.1 ∧ r.1 ≤ r.2 ∧ r.2 ≤ e)
  | none => true

def pairwiseB {α : Type} (r : α → α → Bool) : List α → Bool
  | [] => true
  | x :: xs => xs.all (r x) && pairwiseB r xs

theorem pairwiseB_iff {α : Type} (r : α → α → Bool) :
    ∀ l : List α, pairwiseB r l = true ↔ l.Pairwise (fun a b => r a b = true) := by
  intro l
  induction l with
  | nil => simp [pairwiseB]
  | cons x xs ih =>
    simp [pairwiseB, ih, List.pairwise_cons, List.all_eq_true]

/-- Well-formedness of one statement's line geometry, as the Python parser
produces it. -/
def stmtWFb : PyStmt → Bool
  | .functionDef _ _ l e _ => decide (l ≤ pyEndLine l e)
  | .classDef _ l e body =>
      decide (l ≤ pyEndLine l e) &&
      body.all (methodWithin l (pyEndLine l e)) &&
      pairwiseB methodSep body
  | _ => true

/-- Well-formedness of a module: every statement is well formed, and the
chunk-producing top-level statements appear in source order with disjoint
ranges. -/
def modWFb (body : List PyStmt) : Bool :=
  body.all stmtWFb &&
  pairwiseB (fun a b => !(producesChunks a && producesChunks b) ||
    decide (stmtEnd a < stmtStart b)) body

theorem astChunks_produces (m : Nat) (lines : List String) (st : PyStmt) (c : Chunk)
    (hc : c ∈ astChunksOfStmt m lines st) : producesChunks st = true := by
  cases st with
  | functionDef isA nm l e fb => rfl
  | classDef nm l e cb => rfl
  | exprStmt l e ex => simp [astChunksOfStmt] at hc
  | otherStmt l e => simp [astChunksOfStmt] at hc

theorem astChunks_bounds (m : Nat) (lines : List String) (st : PyStmt)
    (hwf : stmtWFb st = true) :
    ∀ c ∈ astChunksOfStmt m lines st,
      stmtStart st ≤ c.start_line ∧ c.start_line ≤ c.end_line ∧ c.end_line ≤ stmtEnd st := by
  intro c hc
  cases st with
  | functionDef isA nm l e fb =>
    simp only [astChunksOfStmt, List.mem_singleton] at hc
    subst hc
    simp only [stmtStart, stmtEnd]
    simp only [stmtWFb, decide_eq_true_eq] at hwf
    exact ⟨Nat.le_refl _, hwf, Nat.le_refl _⟩
  | classDef nm l e cb =>
    simp only [stmtWFb, Bool.and_eq_true, decide_eq_true_eq] at hwf
    obtain ⟨⟨hle, hall⟩, _⟩ := hwf
    simp only [stmtStart, stmtEnd]
    simp only [astChunksOfStmt] at hc
    split at hc
    · split at hc
      · simp only [List.mem_singleton] at hc
        subst hc
        exact ⟨Nat.le_refl _, hle, Nat.le_refl _⟩
      · obtain ⟨mc, hmc, hcm⟩ := List.mem_flatMap.mp hc
        cases mc with
        | functionDef isA2 nm2 ml me fb2 =>
          simp only [List.mem_singleton] at hcm
          subst hcm
          rw [List.all_eq_true] at hall
          have := hall _ hmc
          simp only [methodWithin, methodRange, decide_eq_true_eq] at this
          exact ⟨this.1, this.2.1, this.2.2⟩
        | classDef nm2 l2 e2 cb2 => simp at hcm
        | exprStmt l2 e2 ex2 => simp at hcm
        | otherStmt l2 e2 => simp at hcm
    · simp only [List.mem_singleton] at hc
      subst hc
      exact ⟨Nat.le_refl _, hle, Nat.le_refl _⟩
  | exprStmt l e ex => simp [astChunksOfStmt] at hc
  | otherStmt l e => simp [astChunksOfStmt] at hc

theorem astChunks_pairwise (m : Nat) (lines : List String) (st : PyStmt)
    (hwf : stmtWFb st = true) :
    (astChunksOfStmt m lines st).Pairwise (fun a b => a.end_line < b.start_line) := by
  cases st with
  | functionDef isA nm l e fb => simp [astChunksOfStmt]
  | classDef nm l e cb =>
    simp only [stmtWFb, Bool.and_eq_true] at hwf
    obtain ⟨_, hsep⟩ := hwf
    rw [pairwiseB_iff] at hsep
    simp only [astChunksOfStmt]
    split
    · split
      · simp
      · rw [List.pairwise_flatMap]
        constructor
        · intro a _
          cases a <;> simp
        · refine List.Pairwise.imp_of_mem ?_ hsep
          intro a b ha hb hab x hx y hy
          cases a with
          | functionDef isA2 nm2 ml me fb2 =>
            cases b with
            | functionDef isB nb lb eb fbb =>
              simp only [List.mem_singleton] at hx hy
              subst hx
              subst hy
              simpa [methodSep, methodRange] using hab
            | classDef n2 l2 e2 c2 => simp at hy
            | exprStmt l2 e2 x2 => simp at hy
            | otherStmt l2 e2 => simp at hy
          | classDef n2 l2 e2 c2 => simp at hx
          | exprStmt l2 e2 x2 => simp at hx
          | otherStmt l2 e2 => simp at hx
    · simp
  | exprStmt l e ex => simp [astChunksOfStmt]
  | otherStmt l e => simp [astChunksOfStmt]

theorem astChunks_flat_pairwise (m : Nat) (lines : List String) (body : List PyStmt)
    (hwf : modWFb body = true) :
    (body.flatMap (astChunksOfStmt m lines)).Pairwise (fun a b => a.end_line < b.start_line) := by
  unfold modWFb at hwf
  rw [Bool.and_eq_true, List.all_eq_true, pairwiseB_iff] at hwf
  obtain ⟨hall, hsep⟩ := hwf
  rw [List.pairwise_flatMap]
  constructor
  · intro st hst
    exact astChunks_pairwise m lines st (hall st hst)
  · refine List.Pairwise.imp_of_mem ?_ hsep
    intro a b ha hb hab x hx y hy
    have hpa := astChunks_produces m lines a x hx
    have hpb := astChunks_produces m lines b y hy
    rw [hpa, hpb] at hab
    simp only [Bool.and_self, Bool.not_true, Bool.false_or, decide_eq_true_eq] at hab
    have hxb := astChunks_bounds m lines a (hall a ha) x hx
    have hyb := astChunks_bounds m lines b (hall b hb) y hy
    omega

theorem chunk_by_size_strict_sorted (defaultType : String) (nameFmt : Nat → Nat → String)
    (code : String) (maxLines : Nat) :
    (chunk_by_size defaultType nameFmt code maxLines).Pairwise
      (fun a b => a.end_line < b.start_line) ∧
    (∀ c ∈ chunk_by_size defaultType nameFmt code maxLines, c.start_line ≤ c.end_line) := by
  obtain ⟨_, _, _, hchain, hbound⟩ :=
    chunkBySizeGo_spec defaultType nameFmt (maxLines - 1) (splitLines code) 0
      (splitLines_ne_nil code)
  exact ⟨chain_contig_pairwise _ hchain hbound, hbound⟩

/-- Repository-realistic parser configuration for the C6 counterexample:
Java chunks at `class_declaration` nodes and sub-chunks at
`method_declaration` nodes, with a small line budget. -/
def cfgC6 : ParserCfg :=
  { max_chunk_lines := 5,
    chunk_node_types := fun lang => if lang = "java" then ["class_declaration"] else [],
    sub_chunk_types := fun lang => if lang = "java" then ["method_declaration"] else [],
    default_chunk_type := "code_chunk",
    default_node_name := "unknown",
    default_chunk_name_fmt := fun _ _ => "chunk" }

def jIdent (nm : String) (r : Nat) : TSNode := .mk "identifier" r r nm [] []

def jMethod1 : TSNode :=
  .mk "method_declaration" 10 11 "void m1() { }" [("name", jIdent "m1" 10)] [jIdent "m1" 10]

def jMethod2 : TSNode :=
  .mk "method_declaration" 20 21 "void m2() { }" [("name", jIdent "m2" 20)] [jIdent "m2" 20]

def jMethod3 : TSNode :=
  .mk "method_declaration" 30 31 "void m3() { }" [("name", jIdent "m3" 30)] [jIdent "m3" 30]

def jInnerBody : TSNode := .mk "class_body" 19 22 "{ ... }" [] [jMethod2]

def jInnerClass : TSNode :=
  .mk "class_declaration" 18 23 "class B { ... }" [("name", jIdent "B" 18)]
    [jIdent "B" 18, jInnerBody]

def jOuterBody : TSNode :=
  .mk "class_body" 1 40 "{ ... }" [] [jMethod1, jInnerClass, jMethod3]

def jOuterClass : TSNode :=
  .mk "class_declaration" 0 40 "class A { ... }" [("name", jIdent "A" 0)]
    [jIdent "A" 0, jOuterBody]

def jRootC6 : TSNode := .mk "program" 0 41 "..." [] [jOuterClass]

def codeC6 : String := joinNL (List.replicate 42 "int x;")

unseal getSubChunksLoop

/-- C6 counterexample: chunking a Java file whose oversized outer class holds
methods `m1` (lines 11–12), `m3` (lines 31–32) and, inside a nested class
*between* them, `m2` (lines 21–22).  The breadth-first sub-chunk search emits
all depth-1 methods before descending into the nested class, and the
tree-sitter path never sorts, so `chunk_code` returns start lines
`[11, 31, 21]` — not sorted by `start_line`. -/
theorem C6_counterexample :
    ((chunk_code_treesitter cfgC6 "java" jRootC6 codeC6).map (fun c => c.start_line)) =
      [11, 31, 21] ∧
    ¬ (chunk_code_treesitter cfgC6 "java" jRootC6 codeC6).Pairwise
        (fun a b => a.start_line ≤ b.start_line) := by
  constructor
  · decide
  · decide

/-- C6 as amended: the size path yields chunks in strictly increasing disjoint
ranges; the Python-AST path always returns a list sorted by `start_line` (it
sorts explicitly) and, for well-formed parse geometry, mutually disjoint
ranges; the tree-sitter declaration path is sorted and disjoint when no
top-level node exceeds the size limit (no sub-chunking), but its sub-chunking
of an oversized node may emit chunks out of `start_line` order (breadth-first
order), as the counterexample shows. -/
theorem C6_chunk_order_amended :
    (∀ (defaultType : String) (nameFmt : Nat → Nat → String) (code : String) (m : Nat),
       1 ≤ m →
       (chunk_by_size defaultType nameFmt code m).Pairwise
         (fun a b => a.end_line < b.start_line)) ∧
    (∀ (cfg : ParserCfg) (code : String) (body : List PyStmt),
       (chunk_python_with_ast cfg code body).Pairwise
         (fun a b => a.start_line ≤ b.start_line)) ∧
    (∀ (cfg : ParserCfg) (code : String) (body : List PyStmt),
       modWFb body = true →
       (chunk_python_with_ast cfg code body).Pairwise chunkDisj) ∧
    (∀ (cfg : ParserCfg) (lang : String) (tree : TSNode) (code : String),
       tree.children.Pairwise (fun a b => a.endRow < b.startRow) →
       (∀ n ∈ tree.children, n.endRow - n.startRow ≤ cfg.max_chunk_lines) →
       (chunk_code_treesitter cfg lang tree code).Pairwise
         (fun a b => a.end_line < b.start_line)) := by
  refine ⟨?_, ?_, ?_, ?_⟩
  · intro defaultType nameFmt code m _
    exact (chunk_by_size_strict_sorted defaultType nameFmt code m).1
  · intro cfg code body
    simp only [chunk_python_with_ast]
    split
    · obtain ⟨hpw, hbound⟩ := chunk_by_size_strict_sorted cfg.default_chunk_type
        cfg.default_chunk_name_fmt code cfg.max_chunk_lines
      refine List.Pairwise.imp_of_mem ?_ hpw
      intro a b ha hb hab
      have := hbound a ha
      omega
    · refine pySort_pairwise
        (fun (a b c : Chunk) (hab : a.start_line ≤ b.start_line)
          (hbc : b.start_line ≤ c.start_line) => Nat.le_trans hab hbc) _ ?_
      refine List.Pairwise.imp ?_ (List.pairwise_of_forall (fun _ _ => trivial))
      intro y x _
      constructor
      · intro h
        exact of_decide_eq_true h
      · intro h
        have := of_decide_eq_false h
        omega
  · intro cfg code body hwf
    simp only [chunk_python_with_ast]
    split
    · obtain ⟨hpw, _⟩ := chunk_by_size_strict_sorted cfg.default_chunk_type
        cfg.default_chunk_name_fmt code cfg.max_chunk_lines
      refine List.Pairwise.imp ?_ hpw
      intro a b h
      exact Or.inl h
    · have hflat := astChunks_flat_pairwise cfg.max_chunk_lines (splitLines code) body hwf
      have hperm := pySort_perm (fun y x : Chunk => decide (y.start_line ≤ x.start_line))
        (body.flatMap (astChunksOfStmt cfg.max_chunk_lines (splitLines code)))
      rw [List.Perm.pairwise_iff (fun h => chunkDisj_symm h) hperm]
      refine List.Pairwise.imp ?_ hflat
      intro a b h
      exact Or.inl h
  · intro cfg lang tree code hpw hnosub
    simp only [chunk_code_treesitter]
    split
    · exact (chunk_by_size_strict_sorted cfg.default_chunk_type
        cfg.default_chunk_name_fmt code cfg.max_chunk_lines).1
    · have hsingle : ∀ n ∈ tree.children.filter (fun n => n.type ∈ cfg.chunk_node_types lang),
          ¬ (cfg.max_chunk_lines < n.endRow + 1 - (n.startRow + 1)) := by
        intro n hn
        have := hnosub n (List.mem_of_mem_filter hn)
        omega
      rw [List.pairwise_flatMap]
      constructor
      · intro n hn
        rw [if_neg (hsingle n hn)]
        simp
      · have hpwf : (tree.children.filter
            (fun n => n.type ∈ cfg.chunk_node_types lang)).Pairwise
              (fun a b => a.endRow < b.startRow) :=
          List.Pairwise.sublist (List.filter_sublist _) hpw
        refine List.Pairwise.imp_of_mem ?_ hpwf
        intro a b ha hb hab x hx y hy
        rw [if_neg (hsingle a ha)] at hx
        rw [if_neg (hsingle b hb)] at hy
        simp only [List.mem_singleton] at hx hy
        subst hx
        subst hy
        simp only
        omega

/-- Concrete well-formed module for the C6 witness: one function, one
oversized class with two methods. -/
def pyModC6 : List PyStmt :=
  [PyStmt.functionDef false "f" 1 3 [],
   PyStmt.classDef "C" 5 20
     [PyStmt.functionDef false "m" 6 8 [], PyStmt.functionDef false "n" 10 12 []]]

/-- Concrete tree for the C6 witness: two small top-level classes. -/
def tsTreeC6w : TSNode :=
  .mk "program" 0 10 "" []
    [.mk "class_declaration" 0 2 "class A { }" [("name", jIdent "A" 0)] [jIdent "A" 0],
     .mk "class_declaration" 4 6 "class B { }" [("name", jIdent "B" 4)] [jIdent "B" 4]]

/-- Witness for the amended C6. -/
theorem C6_chunk_order_amended_witness :
    ((1 : Nat) ≤ 2 ∧ modWFb pyModC6 = true ∧
     tsTreeC6w.children.Pairwise (fun a b => a.endRow < b.startRow) ∧
     (∀ n ∈ tsTreeC6w.children, n.endRow - n.startRow ≤ cfgC6.max_chunk_lines)) ∧
    ((chunk_by_size "code_chunk" (fun _ _ => "chunk") "a\nb\nc" 2).Pairwise
       (fun a b => a.end_line < b.start_line) ∧
     (chunk_python_with_ast cfgC6 codeC6 pyModC6).Pairwise chunkDisj ∧
     (chunk_code_treesitter cfgC6 "java" tsTreeC6w codeC6).Pairwise
       (fun a b => a.end_line < b.start_line)) :=
  ⟨⟨by decide, by decide, by decide, by decide⟩,
   C6_chunk_order_amended.1 "code_chunk" (fun _ _ => "chunk") "a\nb\nc" 2 (by decide),
   C6_chunk_order_amended.2.2.1 cfgC6 codeC6 pyModC6 (by decide),
   C6_chunk_order_amended.2.2.2 cfgC6 "java" tsTreeC6w codeC6 (by decide) (by decide)⟩

/-! ## Claim C10: chunk text matches the declared line range -/

theorem chunkBySizeGo_text (defaultType : String) (nameFmt : Nat → Nat → String) (m1 : Nat)
    (lines : List String) :
    ∀ (n : Nat) (ls : List String) (k : Nat), ls.length ≤ n → ls = lines.drop k →
      ∀ c ∈ chunkBySizeGo defaultType nameFmt m1 ls k,
        c.text = joinNL (sliceLines lines (c.start_line - 1) c.end_line) := by
  intro n
  induction n with
  | zero =>
    intro ls k hlen hdrop c hc
    match ls, hc with
    | [], hc => rw [chunkBySizeGo] at hc; cases hc
    | l :: ls', hc => simp at hlen
  | succ n ih =>
    intro ls k hlen hdrop c hc
    match ls, hc with
    | [], hc => rw [chunkBySizeGo] at hc; cases hc
    | l :: ls', hc =>
      rw [chunkBySizeGo] at hc
      rcases List.mem_cons.mp hc with hc | hc
      · subst hc
        simp only
        have hslice : sliceLines lines (k + 1 - 1) (k + ((l :: ls').take (m1 + 1)).length) =
            (l :: ls').take (m1 + 1) := by
          unfold sliceLines
          have hk1 : k + 1 - 1 = k := by omega
          rw [hk1, ← hdrop]
          have : k + ((l :: ls').take (m1 + 1)).length - k = ((l :: ls').take (m1 + 1)).length := by
            omega
          rw [this]
          rw [List.take_eq_take]
          simp only [List.length_take]
          omega
        rw [hslice]
      · have hlen' : ((l :: ls').drop (m1 + 1)).length ≤ n := by
          simp only [List.length_drop]
          simp only [List.length_cons] at hlen ⊢
          omega
        have hdrop' : (l :: ls').drop (m1 + 1) = lines.drop (k + (m1 + 1)) := by
          rw [hdrop, List.drop_drop]
        exact ih _ (k + (m1 + 1)) hlen' hdrop' c hc

theorem chunk_by_size_text (defaultType : String) (nameFmt : Nat → Nat → String)
    (code : String) (maxLines : Nat) :
    ∀ c ∈ chunk_by_size defaultType nameFmt code maxLines,
      c.text = joinNL (sliceLines (splitLines code) (c.start_line - 1) c.end_line) :=
  chunkBySizeGo_text defaultType nameFmt (maxLines - 1) (splitLines code)
    (splitLines code).length (splitLines code) 0 (Nat.le_refl _)
    (List.drop_zero (splitLines code)).symm

theorem getSubChunksLoop_text (subTypes : List String) (default_node_name : String)
    (lines : List String) :
    ∀ (k : Nat) (q : List TSNode), tsSizeList q ≤ k →
      ∀ acc : List Chunk,
        (∀ c ∈ acc, c.text = joinNL (sliceLines lines (c.start_line - 1) c.end_line)) →
        ∀ c ∈ getSubChunksLoop subTypes default_node_name lines q acc,
          c.text = joinNL (sliceLines lines (c.start_line - 1) c.end_line) := by
  intro k
  induction k with
  | zero =>
    intro q hq acc hacc c hc
    match q, hq with
    | [], _ =>
      rw [getSubChunksLoop] at hc
      exact hacc c hc
    | n :: q', hq =>
      have := tsSize_pos n
      rw [tsSizeList] at hq
      omega
  | succ k ih =>
    intro q hq acc hacc c hc
    match q, hc with
    | [], hc =>
      rw [getSubChunksLoop] at hc
      exact hacc c hc
    | n :: q', hc =>
      rw [getSubChunksLoop] at hc
      rw [tsSizeList] at hq
      have hpos := tsSize_pos n
      split at hc
      · refine ih q' (by omega) _ ?_ c hc
        intro c' hc'
        rcases List.mem_append.mp hc' with h | h
        · exact hacc c' h
        · simp only [List.mem_singleton] at h
          subst h
          rfl
      · refine ih (q' ++ n.children) ?_ acc hacc c hc
        rw [tsSizeList_append]
        have := tsSizeList_children_lt n
        omega

theorem chunk_code_treesitter_text (cfg : ParserCfg) (lang : String) (tree : TSNode)
    (code : String) :
    ∀ c ∈ chunk_code_treesitter cfg lang tree code,
      c.text = joinNL (sliceLines (splitLines code) (c.start_line - 1) c.end_line) := by
  simp only [chunk_code_treesitter]
  split
  · exact chunk_by_size_text cfg.default_chunk_type cfg.default_chunk_name_fmt code
      cfg.max_chunk_lines
  · intro c hc
    obtain ⟨n, hn, hcn⟩ := List.mem_flatMap.mp hc
    split at hcn
    · split at hcn
      · simp only [List.mem_singleton] at hcn
        subst hcn
        rfl
      · exact getSubChunksLoop_text (cfg.sub_chunk_types lang) cfg.default_node_name
          (splitLines code) (tsSizeList n.children) n.children (Nat.le_refl _) []
          (fun c hc => by cases hc) c hcn
    · simp only [List.mem_singleton] at hcn
      subst hcn
      rfl

theorem joinNL_single (lines : List String) (k : Nat) (hk : k < lines.length) :
    joinNL (sliceLines lines k (k + 1)) = lines.getD k "" := by
  unfold sliceLines
  have h1 : k + 1 - k = 1 := by omega
  rw [h1]
  have hne : lines.drop k ≠ [] := by
    intro h
    have := List.drop_eq_nil_iff.mp h
    omega
  have hhead : (lines.drop k).head? = lines[k]? := List.head?_drop lines k
  match hd : lines.drop k, hne with
  | x :: xs, _ =>
    rw [hd] at hhead
    simp only [List.head?_cons] at hhead
    rw [List.getD_eq_getElem?_getD, ← hhead]
    rfl

/-- Line-geometry validity of a statement for the text-consistency claim:
every range the chunker will slice is within the file. -/
def methodRangeOK (n : Nat) (c : PyStmt) : Bool :=
  match methodRange c with
  | some r => decide (1 ≤ r.1 ∧ r.1 ≤ r.2 ∧ r.2 ≤ n)
  | none => true

def pyTextWFb (n : Nat) : PyStmt → Bool
  | .functionDef _ _ l e _ => decide (1 ≤ l ∧ l ≤ pyEndLine l e ∧ pyEndLine l e ≤ n)
  | .classDef _ l e body =>
      decide (1 ≤ l ∧ l ≤ pyEndLine l e ∧ pyEndLine l e ≤ n) && body.all (methodRangeOK n)
  | _ => true

theorem pyChunkText_eq (lines : List String) (s e : Nat) (h1 : 1 ≤ s) (h2 : s ≤ e)
    (h3 : e ≤ lines.length) :
    pyChunkText lines s e = joinNL (sliceLines lines (s - 1) e) := by
  unfold pyChunkText
  split
  · rfl
  · rename_i hlt
    have he : e = s := by omega
    subst he
    have hk : e - 1 < lines.length := by omega
    have hsingle := joinNL_single lines (e - 1) hk
    have harg : (e - 1) + 1 = e := by omega
    rw [harg] at hsingle
    exact hsingle.symm

theorem astChunksOfStmt_text (m : Nat) (lines : List String) (st : PyStmt)
    (hwf : pyTextWFb lines.length st = true) :
    ∀ c ∈ astChunksOfStmt m lines st,
      c.text = joinNL (sliceLines lines (c.start_line - 1) c.end_line) := by
  intro c hc
  cases st with
  | functionDef isA nm l e fb =>
    simp only [astChunksOfStmt, List.mem_singleton] at hc
    subst hc
    simp only [pyTextWFb, decide_eq_true_eq] at hwf
    exact pyChunkText_eq lines l (pyEndLine l e) hwf.1 hwf.2.1 hwf.2.2
  | classDef nm l e cb =>
    simp only [pyTextWFb, Bool.and_eq_true, decide_eq_true_eq] at hwf
    obtain ⟨hcl, hall⟩ := hwf
    simp only [astChunksOfStmt] at hc
    split at hc
    · split at hc
      · simp only [List.mem_singleton] at hc
        subst hc
        exact pyChunkText_eq lines l (pyEndLine l e) hcl.1 hcl.2.1 hcl.2.2
      · obtain ⟨mc, hmc, hcm⟩ := List.mem_flatMap.mp hc
        cases mc with
        | functionDef isA2 nm2 ml me fb2 =>
          simp only [List.mem_singleton] at hcm
          subst hcm
          rw [List.all_eq_true] at hall
          have := hall _ hmc
          simp only [methodRangeOK, methodRange, decide_eq_true_eq] at this
          exact pyChunkText_eq lines ml (pyEndLine ml me) this.1 this.2.1 this.2.2
        | classDef nm2 l2 e2 cb2 => simp at hcm
        | exprStmt l2 e2 ex2 => simp at hcm
        | otherStmt l2 e2 => simp at hcm
    · simp only [List.mem_singleton] at hc
      subst hc
      exact pyChunkText_eq lines l (pyEndLine l e) hcl.1 hcl.2.1 hcl.2.2
  | exprStmt l e ex => simp [astChunksOfStmt] at hc
  | otherStmt l e => simp [astChunksOfStmt] at hc

theorem chunk_python_with_ast_text (cfg : ParserCfg) (code : String) (body : List PyStmt)
    (hwf : body.all (pyTextWFb (splitLines code).length) = true) :
    ∀ c ∈ chunk_python_with_ast cfg code body,
      c.text = joinNL (sliceLines (splitLines code) (c.start_line - 1) c.end_line) := by
  simp only [chunk_python_with_ast]
  split
  · exact chunk_by_size_text cfg.default_chunk_type cfg.default_chunk_name_fmt code
      cfg.max_chunk_lines
  · intro c hc
    have hmem := (pySort_perm (fun y x : Chunk => decide (y.start_line ≤ x.start_line))
      (body.flatMap (astChunksOfStmt cfg.max_chunk_lines (splitLines code)))).mem_iff.mp hc
    obtain ⟨st, hst, hcs⟩ := List.mem_flatMap.mp hmem
    rw [List.all_eq_true] at hwf
    exact astChunksOfStmt_text cfg.max_chunk_lines (splitLines code) st (hwf st hst) c hcs

/-- C10: on every chunking path, a chunk's `text` is exactly the
newline-join of the source's lines from `start_line` through `end_line`
(1-indexed, inclusive; the slice `lines[start_line - 1 : end_line]`).  The
size and tree-sitter paths compute the text this way for arbitrary inputs;
the Python-AST path does so for every module whose line geometry is valid for
the file (as `ast.parse` guarantees), the hypothesis `pyTextWFb`. -/
theorem C10_chunk_text_consistency :
    (∀ (defaultType : String) (nameFmt : Nat → Nat → String) (code : String) (m : Nat),
       1 ≤ m →
       ∀ c ∈ chunk_by_size defaultType nameFmt code m,
         c.text = joinNL (sliceLines (splitLines code) (c.start_line - 1) c.end_line)) ∧
    (∀ (cfg : ParserCfg) (lang : String) (tree : TSNode) (code : String),
       1 ≤ cfg.max_chunk_lines →
       ∀ c ∈ chunk_code_treesitter cfg lang tree code,
         c.text = joinNL (sliceLines (splitLines code) (c.start_line - 1) c.end_line)) ∧
    (∀ (cfg : ParserCfg) (code : String) (body : List PyStmt),
       1 ≤ cfg.max_chunk_lines →
       body.all (pyTextWFb (splitLines code).length) = true →
       ∀ c ∈ chunk_python_with_ast cfg code body,
         c.text = joinNL (sliceLines (splitLines code) (c.start_line - 1) c.end_line)) := by
  refine ⟨?_, ?_, ?_⟩
  · intro defaultType nameFmt code m _
    exact chunk_by_size_text defaultType nameFmt code m
  · intro cfg lang tree code _
    exact chunk_code_treesitter_text cfg lang tree code
  · intro cfg code body _ hwf
    exact chunk_python_with_ast_text cfg code body hwf

/-- Witness for C10 at the concrete module `pyModC6` over a 42-line file. -/
theorem C10_chunk_text_consistency_witness :
    (1 ≤ cfgC6.max_chunk_lines ∧
     pyModC6.all (pyTextWFb (splitLines codeC6).length) = true) ∧
    ((∀ c ∈ chunk_by_size "code_chunk" (fun _ _ => "chunk") "a\nb\nc" 2,
        c.text = joinNL (sliceLines (splitLines "a\nb\nc") (c.start_line - 1) c.end_line)) ∧
     (∀ c ∈ chunk_code_treesitter cfgC6 "java" tsTreeC6w codeC6,
        c.text = joinNL (sliceLines (splitLines codeC6) (c.start_line - 1) c.end_line)) ∧
     (∀ c ∈ chunk_python_with_ast cfgC6 codeC6 pyModC6,
        c.text = joinNL (sliceLines (splitLines codeC6) (c.start_line - 1) c.end_line))) :=
  ⟨⟨by decide, by decide⟩,
   C10_chunk_text_consistency.1 "code_chunk" (fun _ _ => "chunk") "a\nb\nc" 2 (by decide),
   C10_chunk_text_consistency.2.1 cfgC6 "java" tsTreeC6w codeC6 (by decide),
   C10_chunk_text_consistency.2.2 cfgC6 codeC6 pyModC6 (by decide) (by decide)⟩
